import Mathlib

/-!
See: a shunting-yard expression evaluator.

Shallow embedding of `src/See/ShuntingYard.h` / `src/See/ShuntingYard.cpp`.

Modelling conventions.

* `double` is an abstract type `α`.  The literal `0.0` is `(0 : α)`; the
  functions of `<functional>` / `<cmath>` used by `CreateSimpleContext` are
  the fields of `DoubleOps α`.
* `std::map<std::string, X>` is an association list `List (String × X)`;
  `find` / `count` / `at` are `List.lookup` (first match wins, as for a map
  built from an initializer list).
* `std::stack` is a list whose head is the top; `std::queue` is a list whose
  head is the front (`push` appends at the end).
* A `const char*` is the `List Char` of the characters before the terminator;
  reading past the end, or a NUL inside the list, reads as NUL.
* A C++ exception is a value of `Failure`.  `top()` / `pop()` on an empty
  `std::stack`, which the C++ standard leaves undefined, stops the model with
  `Failure.undefinedBehaviour`.
* The member `lastTokenReadWasOperator` is not initialised by the constructor
  of `RPNVisitor`; its indeterminate starting value is an explicit parameter.
-/

namespace See

/-- Outcomes other than a normal return. -/
inductive Failure where
  /-- Thrown as `std::domain_error("Something wrong with this expression")`. -/
  | malformedExpression
  /-- Thrown as `std::domain_error("This operator or function is unknown: " + opName)`. -/
  | unknownOperator (opName : String)
  /-- Thrown as `std::domain_error("Unable to find constant or function called " + name)`. -/
  | unresolvedIdentifier (name : String)
  /-- Thrown as `std::domain_error("Unrecognized unary operator or function: " + name)`. -/
  | unrecognizedUnary (name : String)
  /-- Thrown as `std::out_of_range` by `std::map::at`. -/
  | outOfRange
  /-- Reached by `top()` or `pop()` on an empty `std::stack`: no exception is
  thrown, the behaviour of the program is undefined from here on. -/
  | undefinedBehaviour
  deriving DecidableEq, Repr

/-- Equality of outcomes is decidable when it is for failures and for values. -/
instance decEqExcept {ε α : Type} [DecidableEq ε] [DecidableEq α] : DecidableEq (Except ε α)
  | .ok a, .ok b =>
    if h : a = b then isTrue (by rw [h]) else isFalse (fun h2 => h (Except.ok.inj h2))
  | .error a, .error b =>
    if h : a = b then isTrue (by rw [h]) else isFalse (fun h2 => h (Except.error.inj h2))
  | .ok _, .error _ => isFalse (fun h => Except.noConfusion h)
  | .error _, .ok _ => isFalse (fun h => Except.noConfusion h)

/-- The alias `using EvaluationContext = std::stack<double>`; the head is the top. -/
abbrev EvaluationContext (α : Type) := List α

/-- The three subclasses of `struct TokenEvaluator`. -/
inductive TokenEvaluator (α : Type) where
  | ScalarEvaluator (value : α)
  | BinaryOpEvaluator (evalFn : α → α → α)
  | UnaryFunctionEvaluator (evalFn : α → α)

/-- The alias `using EvaluatorsQueue = std::queue<std::unique_ptr<TokenEvaluator>>`;
the head is the front. -/
abbrev EvaluatorsQueue (α : Type) := List (TokenEvaluator α)

/-- The three `evaluate` overrides (ShuntingYard.cpp 18-55). -/
def TokenEvaluator.evaluate {α : Type} :
    TokenEvaluator α → EvaluationContext α → Except Failure (EvaluationContext α)
  | .ScalarEvaluator value, evaluation => .ok (value :: evaluation)
  | .BinaryOpEvaluator evalFn, evaluation =>
    if evaluation.length < 2 then .error .malformedExpression
    else
      match evaluation with
      | right :: left :: rest => .ok (evalFn left right :: rest)
      | _ => .error .malformedExpression
  | .UnaryFunctionEvaluator evalFn, evaluation =>
    match evaluation with
    | toEval :: _ :: rest => .ok (evalFn toEval :: rest)
    | _ => .error .undefinedBehaviour

/-- The `struct ExpressionContext` (ShuntingYard.h 62-68). -/
structure ExpressionContext (α : Type) where
  binaryOperators : List (String × (α → α → α))
  unaryOperators : List (String × (α → α))
  operatorsPrecedence : List (String × Int)
  constantsTable : List (String × α)

/-- The function `CreateEvaluator` (ShuntingYard.cpp 71-83). -/
def CreateEvaluator {α : Type} (ctx : ExpressionContext α) (opName : String) :
    Except Failure (TokenEvaluator α) :=
  match ctx.binaryOperators.lookup opName with
  | some fn => .ok (.BinaryOpEvaluator fn)
  | none =>
    match ctx.unaryOperators.lookup opName with
    | some fn => .ok (.UnaryFunctionEvaluator fn)
    | none => .error (.unknownOperator opName)

/-- The arithmetic on `double` that `CreateSimpleContext` takes from the C++
standard library: `std::multiplies`, `std::plus`, `std::minus`,
`std::divides`, `std::pow`, `std::negate`. -/
structure DoubleOps (α : Type) where
  multiplies : α → α → α
  plus : α → α → α
  minus : α → α → α
  divides : α → α → α
  pow : α → α → α
  negate : α → α

/-- The function `CreateSimpleContext` (ShuntingYard.cpp 207-229). -/
def CreateSimpleContext {α : Type} (D : DoubleOps α) (constants : List (String × α)) :
    ExpressionContext α where
  binaryOperators :=
    [("*", D.multiplies), ("+", D.plus), ("-", D.minus), ("/", D.divides), ("^", D.pow)]
  unaryOperators := [("+", fun d => d), ("-", D.negate)]
  operatorsPrecedence := [("(", -1), ("+", 2), ("-", 2), ("*", 3), ("/", 3), ("^", 4)]
  constantsTable := constants

/-- The context built by the test driver (ShuntingYardTests.cpp 25-35): the
simple context with the unary functions `sin` and `cos` and the binary
comparison `>` added, at precedences 4, 4 and 1.  The two `<cmath>` functions
and the comparison are parameters. -/
def testContext {α : Type} (D : DoubleOps α) (sin cos : α → α) (greater : α → α → α)
    (vars : List (String × α)) : ExpressionContext α :=
  let ctx := CreateSimpleContext D vars
  { binaryOperators := (">", greater) :: ctx.binaryOperators
    unaryOperators := ("cos", cos) :: ("sin", sin) :: ctx.unaryOperators
    operatorsPrecedence := (">", 1) :: ("cos", 4) :: ("sin", 4) :: ctx.operatorsPrecedence
    constantsTable := ctx.constantsTable }

/-- The assignment `ctx.unaryOperators[name] = fn`, as the test driver does
(ShuntingYardTests.cpp 30-31): the new entry is found first. -/
def addUnaryOperator {α : Type} (ctx : ExpressionContext α) (name : String) (fn : α → α) :
    ExpressionContext α :=
  { ctx with unaryOperators := (name, fn) :: ctx.unaryOperators }

/-- The assignment `ctx.binaryOperators[name] = fn`, as the test driver does
(ShuntingYardTests.cpp 32): the new entry is found first. -/
def addBinaryOperator {α : Type} (ctx : ExpressionContext α) (name : String)
    (fn : α → α → α) : ExpressionContext α :=
  { ctx with binaryOperators := (name, fn) :: ctx.binaryOperators }

/-- The calls a scanner makes on an `ExpressionVisitor` (ShuntingYard.h 53-59). -/
inductive Event (α : Type) where
  | OnDigit (value : α)
  | OnWord (name : String)
  | OnOperator (name : String)
  deriving DecidableEq, Repr

/-! ## Shunting-yard visitor -/

/-- The data members of `struct RPNVisitor` (ShuntingYard.h 84-88); the
context reference is passed to each operation instead. -/
structure RPNVisitor (α : Type) where
  operators : List String
  evaluators : EvaluatorsQueue α
  lastTokenReadWasOperator : Bool

/-- The constructor `RPNVisitor::RPNVisitor` (ShuntingYard.cpp 231-235): both containers start
empty and `lastTokenReadWasOperator` is left uninitialised, so it starts with
the indeterminate value given here. -/
def RPNVisitor.create {α : Type} (indeterminate : Bool) : RPNVisitor α :=
  { operators := [], evaluators := [], lastTokenReadWasOperator := indeterminate }

/-- The method `RPNVisitor::OnDigit` (ShuntingYard.cpp 237-241). -/
def RPNVisitor.OnDigit {α : Type} (v : RPNVisitor α) (value : α) : RPNVisitor α :=
  { v with evaluators := v.evaluators ++ [.ScalarEvaluator value],
           lastTokenReadWasOperator := false }

/-- The loop of the `")"` branch of `OnOperator` (ShuntingYard.cpp 271-276)
on the operator stack and the output queue, with the final `operators.pop()`. -/
def popUntilParen {α : Type} (ctx : ExpressionContext α) :
    List String → EvaluatorsQueue α → Except Failure (List String × EvaluatorsQueue α)
  | [], _ => .error .undefinedBehaviour
  | top :: rest, evaluators =>
    if top = "(" then .ok (rest, evaluators)
    else
      match CreateEvaluator ctx top with
      | .ok e => popUntilParen ctx rest (evaluators ++ [e])
      | .error f => .error f

/-- The precedence loop of `OnOperator` (ShuntingYard.cpp 299-304). -/
def popWhilePrecedence {α : Type} (ctx : ExpressionContext α) (name : String) :
    List String → EvaluatorsQueue α → Except Failure (List String × EvaluatorsQueue α)
  | [], evaluators => .ok ([], evaluators)
  | top :: rest, evaluators =>
    match ctx.operatorsPrecedence.lookup name, ctx.operatorsPrecedence.lookup top with
    | some p1, some p2 =>
      if p1 ≤ p2 then
        match CreateEvaluator ctx top with
        | .ok e => popWhilePrecedence ctx name rest (evaluators ++ [e])
        | .error f => .error f
      else .ok (top :: rest, evaluators)
    | _, _ => .error .outOfRange

/-- The method `RPNVisitor::OnOperator` (ShuntingYard.cpp 263-308). -/
def RPNVisitor.OnOperator {α : Type} [Zero α] (ctx : ExpressionContext α) (v : RPNVisitor α)
    (name : String) : Except Failure (RPNVisitor α) :=
  if name = "(" then
    .ok { v with operators := "(" :: v.operators }
  else if name = ")" then
    match popUntilParen ctx v.operators v.evaluators with
    | .ok (operators, evaluators) =>
      .ok { v with operators := operators, evaluators := evaluators }
    | .error f => .error f
  else
    let pushed : Except Failure (EvaluatorsQueue α) :=
      if v.lastTokenReadWasOperator then
        if (ctx.unaryOperators.lookup name).isSome then
          .ok (v.evaluators ++ [.ScalarEvaluator 0])
        else .error (.unrecognizedUnary name)
      else .ok v.evaluators
    match pushed with
    | .error f => .error f
    | .ok evaluators =>
      match popWhilePrecedence ctx name v.operators evaluators with
      | .ok (operators, evaluators) =>
        .ok { operators := name :: operators, evaluators := evaluators,
              lastTokenReadWasOperator := true }
      | .error f => .error f

/-- The method `RPNVisitor::OnWord` (ShuntingYard.cpp 243-261). -/
def RPNVisitor.OnWord {α : Type} [Zero α] (ctx : ExpressionContext α) (v : RPNVisitor α)
    (name : String) : Except Failure (RPNVisitor α) :=
  if (ctx.unaryOperators.lookup name).isSome then
    RPNVisitor.OnOperator ctx { v with evaluators := v.evaluators ++ [.ScalarEvaluator 0] } name
  else
    match ctx.constantsTable.lookup name with
    | none => .error (.unresolvedIdentifier name)
    | some value =>
      .ok { v with evaluators := v.evaluators ++ [.ScalarEvaluator value],
                   lastTokenReadWasOperator := false }

/-- Virtual dispatch of one scanner call to the visitor. -/
def RPNVisitor.visit {α : Type} [Zero α] (ctx : ExpressionContext α) (v : RPNVisitor α) :
    Event α → Except Failure (RPNVisitor α)
  | .OnDigit value => .ok (v.OnDigit value)
  | .OnWord name => v.OnWord ctx name
  | .OnOperator name => v.OnOperator ctx name

/-- The visitor driven through a sequence of scanner calls; the first
exception aborts the rest. -/
def RPNVisitor.visitAll {α : Type} [Zero α] (ctx : ExpressionContext α) :
    RPNVisitor α → List (Event α) → Except Failure (RPNVisitor α)
  | v, [] => .ok v
  | v, e :: es =>
    match v.visit ctx e with
    | .ok v1 => RPNVisitor.visitAll ctx v1 es
    | .error f => .error f

/-- The loop of `RPNVisitor::GetExpressionAsRPN` (ShuntingYard.cpp 163-167). -/
def drainOperators {α : Type} (ctx : ExpressionContext α) :
    List String → EvaluatorsQueue α → Except Failure (EvaluatorsQueue α)
  | [], evaluators => .ok evaluators
  | top :: rest, evaluators =>
    match CreateEvaluator ctx top with
    | .ok e => drainOperators ctx rest (evaluators ++ [e])
    | .error f => .error f

/-- The method `RPNVisitor::GetExpressionAsRPN` (ShuntingYard.cpp 161-169). -/
def RPNVisitor.GetExpressionAsRPN {α : Type} (ctx : ExpressionContext α) (v : RPNVisitor α) :
    Except Failure (EvaluatorsQueue α) :=
  drainOperators ctx v.operators v.evaluators

/-- The function `RPNConverter::ConvertToRPN` (ShuntingYard.cpp 171-176) on the sequence of
calls that the scanner makes. -/
def convertEvents {α : Type} [Zero α] (ctx : ExpressionContext α) (indeterminate : Bool)
    (events : List (Event α)) : Except Failure (EvaluatorsQueue α) :=
  match RPNVisitor.visitAll ctx (RPNVisitor.create indeterminate) events with
  | .ok v => v.GetExpressionAsRPN ctx
  | .error f => .error f

/-- The `while (!rpn.empty())` loop of `Calculate` (ShuntingYard.cpp 199-203). -/
def evaluateQueue {α : Type} :
    EvaluatorsQueue α → EvaluationContext α → Except Failure (EvaluationContext α)
  | [], evaluation => .ok evaluation
  | front :: rpn, evaluation =>
    match front.evaluate evaluation with
    | .ok evaluation1 => evaluateQueue rpn evaluation1
    | .error f => .error f

/-- The call `evaluation.top()` (ShuntingYard.cpp 204). -/
def stackTop {α : Type} : EvaluationContext α → Except Failure α
  | [] => .error .undefinedBehaviour
  | value :: _ => .ok value

/-- The value stack `evaluation` as it is when `Calculate` reaches its
`return` (ShuntingYard.cpp 197-203). -/
def finalStackEvents {α : Type} [Zero α] (ctx : ExpressionContext α) (indeterminate : Bool)
    (events : List (Event α)) : Except Failure (EvaluationContext α) :=
  match convertEvents ctx indeterminate events with
  | .ok rpn => evaluateQueue rpn []
  | .error f => .error f

/-- The method `ShuntingYardCalculator::Calculate` (ShuntingYard.cpp 195-205) on the
sequence of calls that the scanner makes. -/
def calculateEvents {α : Type} [Zero α] (ctx : ExpressionContext α) (indeterminate : Bool)
    (events : List (Event α)) : Except Failure α :=
  match finalStackEvents ctx indeterminate events with
  | .ok evaluation => stackTop evaluation
  | .error f => .error f

/-! ## Scanner -/

/-- The terminator of a C string. -/
def NUL : Char := Char.ofNat 0

/-- The character `*expr`: the head of the list, NUL at its end. -/
def cur (expr : List Char) : Char := expr.headD NUL

/-- The `<cctype>` function `isdigit` in the "C" locale. -/
def isdigit (c : Char) : Bool := decide ('0'.toNat ≤ c.toNat ∧ c.toNat ≤ '9'.toNat)

/-- The `<cctype>` function `isalpha` in the "C" locale. -/
def isalpha (c : Char) : Bool :=
  decide (('a'.toNat ≤ c.toNat ∧ c.toNat ≤ 'z'.toNat) ∨ ('A'.toNat ≤ c.toNat ∧ c.toNat ≤ 'Z'.toNat))

/-- The `<cctype>` function `isspace` in the "C" locale: space, and the five
controls from horizontal tab (9) to carriage return (13). -/
def isspace (c : Char) : Bool := decide (c = ' ' ∨ (9 ≤ c.toNat ∧ c.toNat ≤ 13))

/-- The helper `isAlphaOrUnderscore` (ShuntingYard.cpp 60-63). -/
def isAlphaOrUnderscore (c : Char) : Bool := c != NUL && (isalpha c || c == '_')

/-- The helper `skipWhitespaces` (ShuntingYard.cpp 65-69). -/
def skipWhitespaces : List Char → List Char
  | [] => []
  | c :: cs => if c != NUL && isspace c then skipWhitespaces cs else c :: cs

/-- The function `HandleDigit` (ShuntingYard.cpp 86-96): the advanced cursor and
the visitor calls made.  The library function `strtod` is a parameter: it
gives the value read and the number of characters `nextChar` lies past
`expr`. -/
def HandleDigit {α : Type} (strtod : List Char → α × Nat) (expr : List Char) :
    List Char × List (Event α) :=
  if isdigit (cur expr) then
    ((expr.drop (strtod expr).2), [Event.OnDigit (strtod expr).1])
  else (expr, [])

/-- The part of the contract of the library function `strtod` that the scanner
relies on: on an input that starts with a decimal digit the end pointer lies
past the start, and it never lies past the terminator. -/
def strtodAdvances {α : Type} (strtod : List Char → α × Nat) : Prop :=
  ∀ expr : List Char, isdigit (cur expr) = true →
    1 ≤ (strtod expr).2 ∧ (strtod expr).2 ≤ expr.length

/-- The function `HandleWord` (ShuntingYard.cpp 98-111). -/
def HandleWord {α : Type} (expr : List Char) : List Char × List (Event α) :=
  if isAlphaOrUnderscore (cur expr) then
    (expr.dropWhile isAlphaOrUnderscore,
      [Event.OnWord (String.mk (expr.takeWhile isAlphaOrUnderscore))])
  else (expr, [])

/-- The condition of the inner loop of `HandleOperator` (ShuntingYard.cpp 133-134). -/
def continuesOperator (c : Char) : Bool :=
  c != NUL && !isspace c && !isdigit c && !isAlphaOrUnderscore c && c != '(' && c != ')'

/-- The extraction `ss >> str` from a stream holding `ss`
(ShuntingYard.cpp 139-141): leading whitespace is skipped, then characters
are taken up to the next whitespace; nothing taken leaves `str` empty. -/
def extractWord (ss : List Char) : List Char :=
  (ss.dropWhile isspace).takeWhile (fun c => !isspace c)

/-- The function `HandleOperator` (ShuntingYard.cpp 113-147). -/
def HandleOperator {α : Type} (expr : List Char) : List Char × List (Event α) :=
  match expr with
  | [] => (expr, [])
  | c :: rest =>
    if c = NUL ∨ isdigit c ∨ isAlphaOrUnderscore c then (expr, [])
    else if c = '(' then (rest, [Event.OnOperator "("])
    else if c = ')' then (rest, [Event.OnOperator ")"])
    else
      (rest.dropWhile continuesOperator,
        [Event.OnOperator (String.mk (extractWord (c :: rest.takeWhile continuesOperator)))])

/-- One pass through the body of the loop of `Parse` (ShuntingYard.cpp 154-157). -/
def parseStep {α : Type} (strtod : List Char → α × Nat) (expr : List Char) :
    List Char × List (Event α) :=
  let d := HandleDigit strtod expr
  let w := HandleWord (α := α) d.1
  let o := HandleOperator (α := α) w.1
  (skipWhitespaces o.1, d.2 ++ w.2 ++ o.2)

/-- The loop `while (*expr)` of `Parse` (ShuntingYard.cpp 152-158), run for at
most `fuel` passes: the visitor calls made, or `none` when the loop has not
ended by then. -/
def parseLoop {α : Type} (strtod : List Char → α × Nat) :
    Nat → List Char → Option (List (Event α))
  | fuel, expr =>
    if cur expr = NUL then some []
    else
      match fuel with
      | 0 => none
      | fuel + 1 =>
        match parseLoop strtod fuel (parseStep strtod expr).1 with
        | some events => some ((parseStep strtod expr).2 ++ events)
        | none => none

/-- The function `ExpressionParser::Parse` (ShuntingYard.cpp 149-159) as the
sequence of calls it makes on the visitor.  Each pass of the loop that starts
on a character other than NUL moves the cursor forward when `strtod` does, so
one pass per character is enough fuel. -/
def Parse {α : Type} (strtod : List Char → α × Nat) (expr : List Char) :
    Option (List (Event α)) :=
  parseLoop strtod expr.length (skipWhitespaces expr)

/-- The function `RPNConverter::ConvertToRPN` (ShuntingYard.cpp 171-176); `none` when the
scanner does not finish. -/
def ConvertToRPN {α : Type} [Zero α] (strtod : List Char → α × Nat) (indeterminate : Bool)
    (expr : List Char) (expressionContext : ExpressionContext α) :
    Option (Except Failure (EvaluatorsQueue α)) :=
  (Parse strtod expr).map (convertEvents expressionContext indeterminate)

/-- The value stack when `Calculate` reaches its `return`; `none` when the
scanner does not finish. -/
def finalStack {α : Type} [Zero α] (strtod : List Char → α × Nat) (indeterminate : Bool)
    (expressionContext : ExpressionContext α) (expr : List Char) :
    Option (Except Failure (EvaluationContext α)) :=
  (Parse strtod expr).map (finalStackEvents expressionContext indeterminate)

/-- The method `ShuntingYardCalculator::Calculate` (ShuntingYard.cpp 195-205); `none`
when the scanner does not finish. -/
def Calculate {α : Type} [Zero α] (strtod : List Char → α × Nat) (indeterminate : Bool)
    (expressionContext : ExpressionContext α) (expr : List Char) :
    Option (Except Failure α) :=
  (Parse strtod expr).map (calculateEvents expressionContext indeterminate)

/-! ## An exact instance on the integers

On integers of small magnitude `double` arithmetic is exact, so the program
can be run on them with `Int` in the place of `double`. -/

/-- The operations of `DoubleOps` on integers.  `divides` and `pow` agree with
the `double` ones where the quotient is exact and the exponent is a natural
number. -/
def intOps : DoubleOps Int where
  multiplies := fun a b => a * b
  plus := fun a b => a + b
  minus := fun a b => a - b
  divides := fun a b => a / b
  pow := fun a b => a ^ b.toNat
  negate := fun a => -a

/-- The value of a run of decimal digits, most significant first. -/
def digitsValue (acc : Nat) : List Char → Nat
  | [] => acc
  | c :: cs => digitsValue (10 * acc + (c.toNat - '0'.toNat)) cs

/-- The library function `strtod` on an input whose leading run of decimal digits is
not followed by `.`, `e`, `E`, `x`, `X`: the run is consumed and its value
returned. -/
def strtodDigits (expr : List Char) : Int × Nat :=
  (Int.ofNat (digitsValue 0 (expr.takeWhile isdigit)), (expr.takeWhile isdigit).length)

/-! ## Parse trees -/

/-- An expression tree of numeric literals and binary operators. -/
inductive Expr (α : Type) where
  | number (value : α)
  | binary (op : String) (left right : Expr α)

/-- The fully parenthesised token sequence of a tree, as scanner calls. -/
def Expr.tokens {α : Type} : Expr α → List (Event α)
  | .number value => [Event.OnDigit value]
  | .binary op left right =>
    Event.OnOperator "(" ::
      (left.tokens ++ Event.OnOperator op :: (right.tokens ++ [Event.OnOperator ")"]))

/-- The traversal of a tree with each operator after its two operands, as
evaluation steps; `none` when an operator is not in `binaryOperators`. -/
def Expr.rpn {α : Type} (ctx : ExpressionContext α) : Expr α → Option (EvaluatorsQueue α)
  | .number value => some [.ScalarEvaluator value]
  | .binary op left right =>
    match ctx.binaryOperators.lookup op, left.rpn ctx, right.rpn ctx with
    | some fn, some l, some r => some (l ++ r ++ [.BinaryOpEvaluator fn])
    | _, _, _ => none

/-- Structural evaluation of a tree; `none` when an operator is not in
`binaryOperators`. -/
def Expr.value {α : Type} (ctx : ExpressionContext α) : Expr α → Option α
  | .number value => some value
  | .binary op left right =>
    match ctx.binaryOperators.lookup op, left.value ctx, right.value ctx with
    | some fn, some l, some r => some (fn l r)
    | _, _, _ => none

/-- Every operator of the tree is a key of `binaryOperators`, has a precedence
above the one of `"("`, and is not the token `")"`. -/
def Expr.admissible {α : Type} (ctx : ExpressionContext α) : Expr α → Bool
  | .number _ => true
  | .binary op left right =>
    op != ")" && (ctx.binaryOperators.lookup op).isSome
      && (match ctx.operatorsPrecedence.lookup "(", ctx.operatorsPrecedence.lookup op with
          | some p0, some p => decide (p0 < p)
          | _, _ => false)
      && left.admissible ctx && right.admissible ctx

/-! ## Calls together with the state they leave behind

The stack, the queue and the visitor are passed by reference, so a call that
throws leaves them as they are at the `throw`.  The definitions below give,
for each call, the state it leaves and the exception raised, if any. -/

/-- The outcome of a call from the state it leaves and the exception it raised. -/
def outcome {σ : Type} : σ × Option Failure → Except Failure σ
  | (s, none) => .ok s
  | (_, some f) => .error f

/-- The three `evaluate` overrides (ShuntingYard.cpp 18-55) with the value stack
as the call leaves it. -/
def TokenEvaluator.evaluateInPlace {α : Type} :
    TokenEvaluator α → EvaluationContext α → EvaluationContext α × Option Failure
  | .ScalarEvaluator value, evaluation => (value :: evaluation, none)
  | .BinaryOpEvaluator evalFn, evaluation =>
    if evaluation.length < 2 then (evaluation, some .malformedExpression)
    else
      match evaluation with
      | right :: left :: rest => (evalFn left right :: rest, none)
      | _ => (evaluation, some .malformedExpression)
  | .UnaryFunctionEvaluator evalFn, evaluation =>
    match evaluation with
    | toEval :: _ :: rest => (evalFn toEval :: rest, none)
    | [_] => ([], some .undefinedBehaviour)
    | [] => ([], some .undefinedBehaviour)

/-- The loop of the `")"` branch of `OnOperator` (ShuntingYard.cpp 271-276) with
the operator stack and the queue as it leaves them. -/
def popUntilParenInPlace {α : Type} (ctx : ExpressionContext α) :
    List String → EvaluatorsQueue α → (List String × EvaluatorsQueue α) × Option Failure
  | [], evaluators => (([], evaluators), some .undefinedBehaviour)
  | top :: rest, evaluators =>
    if top = "(" then ((rest, evaluators), none)
    else
      match CreateEvaluator ctx top with
      | .ok e => popUntilParenInPlace ctx rest (evaluators ++ [e])
      | .error f => ((top :: rest, evaluators), some f)

/-- The precedence loop of `OnOperator` (ShuntingYard.cpp 299-304) with the
operator stack and the queue as it leaves them. -/
def popWhilePrecedenceInPlace {α : Type} (ctx : ExpressionContext α) (name : String) :
    List String → EvaluatorsQueue α → (List String × EvaluatorsQueue α) × Option Failure
  | [], evaluators => (([], evaluators), none)
  | top :: rest, evaluators =>
    match ctx.operatorsPrecedence.lookup name, ctx.operatorsPrecedence.lookup top with
    | some p1, some p2 =>
      if p1 ≤ p2 then
        match CreateEvaluator ctx top with
        | .ok e => popWhilePrecedenceInPlace ctx name rest (evaluators ++ [e])
        | .error f => ((top :: rest, evaluators), some f)
      else ((top :: rest, evaluators), none)
    | _, _ => ((top :: rest, evaluators), some .outOfRange)

/-- The end of the last branch of `OnOperator` (ShuntingYard.cpp 299-306): the
precedence loop, then `operators.push(name)` and the flag set, with the
visitor as it is left. -/
def RPNVisitor.pushOperatorInPlace {α : Type} (ctx : ExpressionContext α)
    (v : RPNVisitor α) (name : String) : RPNVisitor α × Option Failure :=
  match popWhilePrecedenceInPlace ctx name v.operators v.evaluators with
  | ((operators, evaluators), some f) =>
    ({ v with operators := operators, evaluators := evaluators }, some f)
  | ((operators, evaluators), none) =>
    ({ operators := name :: operators, evaluators := evaluators,
       lastTokenReadWasOperator := true }, none)

/-- The method `RPNVisitor::OnOperator` (ShuntingYard.cpp 263-308) with the visitor as
the call leaves it. -/
def RPNVisitor.OnOperatorInPlace {α : Type} [Zero α] (ctx : ExpressionContext α)
    (v : RPNVisitor α) (name : String) : RPNVisitor α × Option Failure :=
  if name = "(" then
    ({ v with operators := "(" :: v.operators }, none)
  else if name = ")" then
    match popUntilParenInPlace ctx v.operators v.evaluators with
    | ((operators, evaluators), r) =>
      ({ v with operators := operators, evaluators := evaluators }, r)
  else
    if v.lastTokenReadWasOperator then
      if (ctx.unaryOperators.lookup name).isSome then
        RPNVisitor.pushOperatorInPlace ctx
          { v with evaluators := v.evaluators ++ [.ScalarEvaluator 0] } name
      else (v, some (.unrecognizedUnary name))
    else RPNVisitor.pushOperatorInPlace ctx v name

/-- The method `RPNVisitor::OnWord` (ShuntingYard.cpp 243-261) with the visitor as the
call leaves it. -/
def RPNVisitor.OnWordInPlace {α : Type} [Zero α] (ctx : ExpressionContext α)
    (v : RPNVisitor α) (name : String) : RPNVisitor α × Option Failure :=
  if (ctx.unaryOperators.lookup name).isSome then
    RPNVisitor.OnOperatorInPlace ctx
      { v with evaluators := v.evaluators ++ [.ScalarEvaluator 0] } name
  else
    match ctx.constantsTable.lookup name with
    | none => (v, some (.unresolvedIdentifier name))
    | some value =>
      ({ v with evaluators := v.evaluators ++ [.ScalarEvaluator value],
                lastTokenReadWasOperator := false }, none)

/-! ## Parenthesis tokens -/

/-- The number of parentheses left open after a sequence of scanner calls that
starts with `depth` of them open; `none` when a `")"` arrives with none open. -/
def parenDepth {α : Type} : Nat → List (Event α) → Option Nat
  | depth, [] => some depth
  | depth, .OnOperator name :: events =>
    if name = "(" then parenDepth (depth + 1) events
    else if name = ")" then
      match depth with
      | 0 => none
      | depth + 1 => parenDepth depth events
    else parenDepth depth events
  | depth, .OnDigit _ :: events => parenDepth depth events
  | depth, .OnWord _ :: events => parenDepth depth events

/-- The parenthesis tokens of a sequence of scanner calls are balanced. -/
def balanced {α : Type} (events : List (Event α)) : Bool :=
  parenDepth 0 events == some 0

/-- The kind of a step is scalar or binary operator, not unary function. -/
def TokenEvaluator.isUnaryFunction {α : Type} : TokenEvaluator α → Bool
  | .UnaryFunctionEvaluator _ => true
  | _ => false

/-! ## Numbers in parenthesis groups -/

/-- The scanner calls of the text `(v1)(v2)...(vn)`: each number in a
parenthesis group of its own. -/
def groupedNumbers {α : Type} : List α → List (Event α)
  | [] => []
  | v :: vs => .OnOperator "(" :: .OnDigit v :: .OnOperator ")" :: groupedNumbers vs

end See

namespace See

/-! ## Helper lemmas -/

theorem visitAll_cons {α : Type} [Zero α] (ctx : ExpressionContext α)
    (x : Event α) (xs : List (Event α)) (v : RPNVisitor α) :
    RPNVisitor.visitAll ctx v (x :: xs) =
      match v.visit ctx x with
      | .ok v1 => RPNVisitor.visitAll ctx v1 xs
      | .error f => .error f := rfl

theorem visitAll_append {α : Type} [Zero α] (ctx : ExpressionContext α)
    (xs ys : List (Event α)) (v : RPNVisitor α) :
    RPNVisitor.visitAll ctx v (xs ++ ys) =
      match RPNVisitor.visitAll ctx v xs with
      | .ok v1 => RPNVisitor.visitAll ctx v1 ys
      | .error f => .error f := by
  induction xs generalizing v with
  | nil => simp [RPNVisitor.visitAll]
  | cons x xs ih =>
    simp only [List.cons_append, RPNVisitor.visitAll]
    cases h : v.visit ctx x with
    | error f => simp
    | ok v1 => simp [ih]

theorem evaluateQueue_append {α : Type} (q1 q2 : EvaluatorsQueue α) (st : EvaluationContext α) :
    evaluateQueue (q1 ++ q2) st =
      match evaluateQueue q1 st with
      | .ok st1 => evaluateQueue q2 st1
      | .error f => .error f := by
  induction q1 generalizing st with
  | nil => simp [evaluateQueue]
  | cons x xs ih =>
    simp only [List.cons_append, evaluateQueue]
    cases h : x.evaluate st with
    | error f => simp
    | ok st1 => simp [ih]

theorem evaluate_binary {α : Type} (fn : α → α → α) (right left : α)
    (rest : EvaluationContext α) :
    (TokenEvaluator.BinaryOpEvaluator fn).evaluate (right :: left :: rest) =
      .ok (fn left right :: rest) := by
  simp [TokenEvaluator.evaluate]

theorem evaluate_unary {α : Type} (fn : α → α) (toEval dummy : α)
    (rest : EvaluationContext α) :
    (TokenEvaluator.UnaryFunctionEvaluator fn).evaluate (toEval :: dummy :: rest) =
      .ok (fn toEval :: rest) := rfl

theorem evaluate_scalar {α : Type} (value : α) (st : EvaluationContext α) :
    (TokenEvaluator.ScalarEvaluator value).evaluate st = .ok (value :: st) := rfl

theorem createEvaluator_binary {α : Type} (ctx : ExpressionContext α) (op : String)
    (fn : α → α → α) (h : ctx.binaryOperators.lookup op = some fn) :
    CreateEvaluator ctx op = .ok (.BinaryOpEvaluator fn) := by
  simp [CreateEvaluator, h]

theorem onOperator_open {α : Type} [Zero α] (ctx : ExpressionContext α)
    (S : List String) (Q : EvaluatorsQueue α) (b : Bool) :
    RPNVisitor.OnOperator ctx ⟨S, Q, b⟩ "(" = .ok ⟨"(" :: S, Q, b⟩ := by
  simp [RPNVisitor.OnOperator]

theorem onOperator_after_open {α : Type} [Zero α] (ctx : ExpressionContext α)
    (S : List String) (Q : EvaluatorsQueue α) (op : String) (p0 p : Int)
    (h1 : op ≠ "(") (h2 : op ≠ ")")
    (hp0 : ctx.operatorsPrecedence.lookup "(" = some p0)
    (hp : ctx.operatorsPrecedence.lookup op = some p) (hlt : p0 < p) :
    RPNVisitor.OnOperator ctx ⟨"(" :: S, Q, false⟩ op = .ok ⟨op :: "(" :: S, Q, true⟩ := by
  simp [RPNVisitor.OnOperator, h1, h2, popWhilePrecedence, hp0, hp, not_le.mpr hlt]

theorem onOperator_close {α : Type} [Zero α] (ctx : ExpressionContext α)
    (S : List String) (Q : EvaluatorsQueue α) (b : Bool) (op : String) (fn : α → α → α)
    (h1 : op ≠ "(") (hf : ctx.binaryOperators.lookup op = some fn) :
    RPNVisitor.OnOperator ctx ⟨op :: "(" :: S, Q, b⟩ ")" =
      .ok ⟨S, Q ++ [.BinaryOpEvaluator fn], b⟩ := by
  simp [RPNVisitor.OnOperator, popUntilParen, h1, createEvaluator_binary ctx op fn hf]

theorem admissible_rpn_value {α : Type} (ctx : ExpressionContext α) (t : Expr α)
    (h : t.admissible ctx = true) : ∃ q val, t.rpn ctx = some q ∧ t.value ctx = some val := by
  induction t with
  | number value => exact ⟨_, _, rfl, rfl⟩
  | binary op l r ihl ihr =>
    simp only [Expr.admissible, Bool.and_eq_true] at h
    obtain ⟨⟨⟨⟨_, hf⟩, _⟩, hl⟩, hr⟩ := h
    obtain ⟨ql, vl, hql, hvl⟩ := ihl hl
    obtain ⟨qr, vr, hqr, hvr⟩ := ihr hr
    obtain ⟨fn, hfn⟩ := Option.isSome_iff_exists.mp hf
    exact ⟨ql ++ qr ++ [.BinaryOpEvaluator fn], fn vl vr, by simp [Expr.rpn, hfn, hql, hqr],
      by simp [Expr.value, hfn, hvl, hvr]⟩

theorem visitAll_tokens {α : Type} [Zero α] (ctx : ExpressionContext α) (t : Expr α) :
    t.admissible ctx = true → ∀ q, t.rpn ctx = some q → ∀ (S : List String)
      (Q : EvaluatorsQueue α) (b : Bool),
      RPNVisitor.visitAll ctx ⟨S, Q, b⟩ t.tokens = .ok ⟨S, Q ++ q, false⟩ := by
  induction t with
  | number value =>
    intro _ q hq S Q b
    simp only [Expr.rpn, Option.some.injEq] at hq
    subst hq
    simp [Expr.tokens, RPNVisitor.visitAll, RPNVisitor.visit, RPNVisitor.OnDigit]
  | binary op l r ihl ihr =>
    intro h q hq S Q b
    simp only [Expr.admissible, Bool.and_eq_true] at h
    obtain ⟨⟨⟨⟨hne, hf⟩, hprec⟩, hl⟩, hr⟩ := h
    obtain ⟨ql, vl, hql, _⟩ := admissible_rpn_value ctx l hl
    obtain ⟨qr, vr, hqr, _⟩ := admissible_rpn_value ctx r hr
    obtain ⟨fn, hfn⟩ := Option.isSome_iff_exists.mp hf
    have hne2 : op ≠ ")" := by simpa using hne
    cases hp0 : ctx.operatorsPrecedence.lookup "(" with
    | none => simp [hp0] at hprec
    | some p0 =>
      cases hp : ctx.operatorsPrecedence.lookup op with
      | none => simp [hp0, hp] at hprec
      | some p =>
        have hlt : p0 < p := by simpa [hp0, hp] using hprec
        have hne1 : op ≠ "(" := by
          intro e
          rw [e, hp0] at hp
          cases hp
          exact lt_irrefl _ hlt
        simp only [Expr.rpn, hfn, hql, hqr, Option.some.injEq] at hq
        subst hq
        simp only [Expr.tokens, visitAll_cons, visitAll_append, RPNVisitor.visit,
          onOperator_open, ihl hl ql hql,
          onOperator_after_open ctx S (Q ++ ql) op p0 p hne1 hne2 hp0 hp hlt,
          ihr hr qr hqr, onOperator_close ctx S _ false op fn hne1 hfn, RPNVisitor.visitAll,
          List.append_assoc]

theorem evaluateQueue_rpn {α : Type} (ctx : ExpressionContext α) (t : Expr α) :
    ∀ q val, t.rpn ctx = some q → t.value ctx = some val → ∀ (st : EvaluationContext α),
      evaluateQueue q st = .ok (val :: st) := by
  induction t with
  | number value =>
    intro q val hq hv st
    simp only [Expr.rpn, Option.some.injEq] at hq
    simp only [Expr.value, Option.some.injEq] at hv
    subst hq hv
    simp [evaluateQueue, TokenEvaluator.evaluate]
  | binary op l r ihl ihr =>
    intro q val hq hv st
    cases hfn : ctx.binaryOperators.lookup op with
    | none => simp [Expr.rpn, hfn] at hq
    | some fn =>
      cases hql : l.rpn ctx with
      | none => simp [Expr.rpn, hfn, hql] at hq
      | some ql =>
        cases hqr : r.rpn ctx with
        | none => simp [Expr.rpn, hfn, hql, hqr] at hq
        | some qr =>
          cases hvl : l.value ctx with
          | none => simp [Expr.value, hfn, hvl] at hv
          | some vl =>
            cases hvr : r.value ctx with
            | none => simp [Expr.value, hfn, hvl, hvr] at hv
            | some vr =>
              simp only [Expr.rpn, hfn, hql, hqr, Option.some.injEq] at hq
              simp only [Expr.value, hfn, hvl, hvr, Option.some.injEq] at hv
              subst hq hv
              simp only [evaluateQueue_append, ihl ql vl hql hvl, ihr qr vr hqr hvr,
                evaluateQueue, evaluate_binary]

theorem isspace_ne_NUL (c : Char) (h : isspace c = true) : c ≠ NUL := by
  rintro rfl
  exact absurd h (by decide)

theorem isdigit_not_isspace (c : Char) (h : isdigit c = true) : isspace c = false := by
  cases hs : isspace c with
  | false => rfl
  | true =>
    simp only [isspace, decide_eq_true_eq] at hs
    simp only [isdigit, decide_eq_true_eq] at h
    have h0 : '0'.toNat = 48 := rfl
    have h9 : '9'.toNat = 57 := rfl
    rcases hs with rfl | hs
    · exact absurd h (by decide)
    · omega

theorem isdigit_ne_NUL (c : Char) (h : isdigit c = true) : c ≠ NUL := by
  rintro rfl
  exact absurd h (by decide)

theorem isAlphaOrUnderscore_not_isdigit (c : Char) (h : isAlphaOrUnderscore c = true) :
    isdigit c = false := by
  cases hd : isdigit c with
  | false => rfl
  | true =>
    simp only [isdigit, decide_eq_true_eq] at hd
    simp only [isAlphaOrUnderscore, isalpha, Bool.and_eq_true, Bool.or_eq_true,
      decide_eq_true_eq, beq_iff_eq] at h
    have h0 : '0'.toNat = 48 := rfl
    have h9 : '9'.toNat = 57 := rfl
    have ha : 'a'.toNat = 97 := rfl
    have hA : 'A'.toNat = 65 := rfl
    rcases h with ⟨_, h | rfl⟩
    · omega
    · exact absurd hd (by decide)

theorem isAlphaOrUnderscore_not_isspace (c : Char) (h : isAlphaOrUnderscore c = true) :
    isspace c = false := by
  cases hs : isspace c with
  | false => rfl
  | true =>
    simp only [isspace, decide_eq_true_eq] at hs
    simp only [isAlphaOrUnderscore, isalpha, Bool.and_eq_true, Bool.or_eq_true,
      decide_eq_true_eq, beq_iff_eq] at h
    have ha : 'a'.toNat = 97 := rfl
    have hA : 'A'.toNat = 65 := rfl
    rcases h with ⟨_, h | rfl⟩
    · rcases hs with rfl | hs
      · exact absurd h (by decide)
      · omega
    · exact absurd hs (by decide)

theorem isAlphaOrUnderscore_ne_NUL (c : Char) (h : isAlphaOrUnderscore c = true) : c ≠ NUL := by
  rintro rfl
  exact absurd h (by decide)

theorem skipWhitespaces_of_all_isspace (expr : List Char)
    (h : ∀ c ∈ expr, isspace c = true) : skipWhitespaces expr = [] := by
  induction expr with
  | nil => rfl
  | cons c cs ih =>
    have hc : isspace c = true := h c (List.mem_cons_self _ _)
    have hn : c ≠ NUL := isspace_ne_NUL c hc
    simp [skipWhitespaces, hc, hn, ih (fun d hd => h d (List.mem_cons_of_mem _ hd))]

theorem parseLoop_nil {α : Type} (strtod : List Char → α × Nat) (fuel : Nat) :
    parseLoop strtod fuel [] = some [] := by
  unfold parseLoop
  simp [cur]

theorem skipWhitespaces_cons_of_not_isspace (c : Char) (cs : List Char)
    (h : isspace c = false) : skipWhitespaces (c :: cs) = c :: cs := by
  simp [skipWhitespaces, h]

theorem handleOperator_nil {α : Type} : HandleOperator (α := α) [] = ([], []) := rfl

theorem handleWord_nil {α : Type} : HandleWord (α := α) [] = ([], []) := by
  simp [HandleWord, cur, isAlphaOrUnderscore, NUL]

theorem parse_single_number {α : Type} (strtod : List Char → α × Nat) (expr : List Char)
    (v : α) (hd : isdigit (cur expr) = true) (hs : strtod expr = (v, expr.length)) :
    Parse strtod expr = some [.OnDigit v] := by
  cases expr with
  | nil => exact absurd hd (by decide)
  | cons c cs =>
    have hc : isdigit c = true := hd
    have hn : cur (c :: cs) ≠ NUL := isdigit_ne_NUL c hc
    have hstep : parseStep strtod (c :: cs) = ([], [.OnDigit v]) := by
      simp [parseStep, HandleDigit, hd, hs, handleWord_nil, handleOperator_nil, skipWhitespaces]
    rw [Parse, skipWhitespaces_cons_of_not_isspace c cs (isdigit_not_isspace c hc)]
    simp only [List.length_cons]
    unfold parseLoop
    simp [hn, hstep, parseLoop_nil]

theorem parse_single_word {α : Type} (strtod : List Char → α × Nat) (expr : List Char)
    (hne : expr ≠ []) (hall : ∀ c ∈ expr, isAlphaOrUnderscore c = true) :
    Parse strtod expr = some [.OnWord (String.mk expr)] := by
  cases expr with
  | nil => exact absurd rfl hne
  | cons c cs =>
    have hc : isAlphaOrUnderscore c = true := hall c (List.mem_cons_self _ _)
    have hn : cur (c :: cs) ≠ NUL := isAlphaOrUnderscore_ne_NUL c hc
    have hw : isAlphaOrUnderscore (cur (c :: cs)) = true := hc
    have hd : isdigit (cur (c :: cs)) = false := isAlphaOrUnderscore_not_isdigit c hc
    have htake : (c :: cs).takeWhile isAlphaOrUnderscore = c :: cs :=
      List.takeWhile_eq_self_iff.mpr hall
    have hdrop : (c :: cs).dropWhile isAlphaOrUnderscore = [] :=
      List.dropWhile_eq_nil_iff.mpr hall
    have hstep : parseStep strtod (c :: cs) = ([], [.OnWord (String.mk (c :: cs))]) := by
      have h1 : HandleDigit strtod (c :: cs) = (c :: cs, []) := by simp [HandleDigit, hd]
      have h2 : HandleWord (α := α) (c :: cs) = ([], [.OnWord (String.mk (c :: cs))]) := by
        simp only [HandleWord, hw, htake, hdrop, if_true]
      simp [parseStep, h1, h2, handleOperator_nil, skipWhitespaces]
    rw [Parse, skipWhitespaces_cons_of_not_isspace c cs (isAlphaOrUnderscore_not_isspace c hc)]
    simp only [List.length_cons]
    unfold parseLoop
    simp [hn, hstep, parseLoop_nil]

theorem evaluate_eq_outcome {α : Type} (e : TokenEvaluator α) (st : EvaluationContext α) :
    e.evaluate st = outcome (e.evaluateInPlace st) := by
  cases e with
  | ScalarEvaluator value => rfl
  | BinaryOpEvaluator fn =>
    simp only [TokenEvaluator.evaluate, TokenEvaluator.evaluateInPlace]
    split
    · rfl
    · split <;> rfl
  | UnaryFunctionEvaluator fn =>
    match st with
    | [] => rfl
    | [_] => rfl
    | _ :: _ :: _ => rfl

theorem popUntilParen_eq_outcome {α : Type} (ctx : ExpressionContext α) (S : List String)
    (Q : EvaluatorsQueue α) :
    popUntilParen ctx S Q = outcome (popUntilParenInPlace ctx S Q) := by
  induction S generalizing Q with
  | nil => rfl
  | cons top rest ih =>
    simp only [popUntilParen, popUntilParenInPlace]
    split
    · rfl
    · cases CreateEvaluator ctx top with
      | error f => rfl
      | ok e => exact ih _

theorem popWhilePrecedence_eq_outcome {α : Type} (ctx : ExpressionContext α) (name : String)
    (S : List String) (Q : EvaluatorsQueue α) :
    popWhilePrecedence ctx name S Q = outcome (popWhilePrecedenceInPlace ctx name S Q) := by
  induction S generalizing Q with
  | nil => rfl
  | cons top rest ih =>
    simp only [popWhilePrecedence, popWhilePrecedenceInPlace]
    split
    · split
      · cases CreateEvaluator ctx top with
        | error f => rfl
        | ok e => exact ih _
      · rfl
    · rfl

theorem onOperator_eq_outcome {α : Type} [Zero α] (ctx : ExpressionContext α)
    (v : RPNVisitor α) (name : String) :
    v.OnOperator ctx name = outcome (v.OnOperatorInPlace ctx name) := by
  unfold RPNVisitor.OnOperator RPNVisitor.OnOperatorInPlace
  by_cases h1 : name = "("
  · simp only [h1, if_true]
    rfl
  · by_cases h2 : name = ")"
    · simp only [h1, h2, if_true, if_false]
      rw [popUntilParen_eq_outcome]
      rcases popUntilParenInPlace ctx v.operators v.evaluators with ⟨⟨S, Q⟩, _ | f⟩ <;> rfl
    · simp only [h1, h2, if_false]
      cases hflag : v.lastTokenReadWasOperator with
      | false =>
        simp only [Bool.false_eq_true, if_false, RPNVisitor.pushOperatorInPlace]
        rw [popWhilePrecedence_eq_outcome]
        rcases popWhilePrecedenceInPlace ctx name v.operators v.evaluators with
          ⟨⟨S, Q⟩, _ | f⟩ <;> rfl
      | true =>
        cases hu : (ctx.unaryOperators.lookup name).isSome with
        | false =>
          simp only [Bool.false_eq_true, if_true, if_false]
          rfl
        | true =>
          simp only [if_true, RPNVisitor.pushOperatorInPlace]
          rw [popWhilePrecedence_eq_outcome]
          generalize popWhilePrecedenceInPlace ctx name _ _ = r
          rcases r with ⟨⟨S, Q⟩, _ | f⟩ <;> rfl

theorem onWord_eq_outcome {α : Type} [Zero α] (ctx : ExpressionContext α)
    (v : RPNVisitor α) (name : String) :
    v.OnWord ctx name = outcome (v.OnWordInPlace ctx name) := by
  unfold RPNVisitor.OnWord RPNVisitor.OnWordInPlace
  split
  · exact onOperator_eq_outcome ctx _ name
  · cases ctx.constantsTable.lookup name <;> rfl

theorem createEvaluator_error {α : Type} (ctx : ExpressionContext α) (name : String)
    (f : Failure) (h : CreateEvaluator ctx name = .error f) : f = .unknownOperator name := by
  unfold CreateEvaluator at h
  cases hb : ctx.binaryOperators.lookup name with
  | some fn => simp [hb] at h
  | none =>
    cases hu : ctx.unaryOperators.lookup name with
    | some fn => simp [hb, hu] at h
    | none =>
      simp only [hb, hu, Except.error.injEq] at h
      exact h.symm

theorem popUntilParen_without_open {α : Type} (ctx : ExpressionContext α) (S : List String) :
    "(" ∉ S → ∀ Q : EvaluatorsQueue α,
      popUntilParen ctx S Q = .error .undefinedBehaviour ∨
      ∃ name ∈ S, popUntilParen ctx S Q = .error (.unknownOperator name) := by
  induction S with
  | nil => intro _ Q; exact Or.inl rfl
  | cons top rest ih =>
    intro hno Q
    have htop : top ≠ "(" := fun e => hno (e ▸ List.mem_cons_self _ _)
    have hrest : "(" ∉ rest := fun m => hno (List.mem_cons_of_mem _ m)
    simp only [popUntilParen, htop, if_false]
    cases hc : CreateEvaluator ctx top with
    | error f =>
      right
      exact ⟨top, List.mem_cons_self _ _, by rw [createEvaluator_error ctx top f hc]⟩
    | ok e =>
      rcases ih hrest (Q ++ [e]) with h | ⟨name, hm, h⟩
      · exact Or.inl h
      · exact Or.inr ⟨name, List.mem_cons_of_mem _ hm, h⟩

theorem popUntilParen_registered_without_open {α : Type} (ctx : ExpressionContext α)
    (S : List String) :
    "(" ∉ S → (∀ name ∈ S, ∃ e, CreateEvaluator ctx name = .ok e) →
      ∀ Q : EvaluatorsQueue α, popUntilParen ctx S Q = .error .undefinedBehaviour := by
  induction S with
  | nil => intro _ _ Q; rfl
  | cons top rest ih =>
    intro hno hreg Q
    have htop : top ≠ "(" := fun e => hno (e ▸ List.mem_cons_self _ _)
    have hrest : "(" ∉ rest := fun m => hno (List.mem_cons_of_mem _ m)
    obtain ⟨e, he⟩ := hreg top (List.mem_cons_self _ _)
    simp only [popUntilParen, htop, if_false, he]
    exact ih hrest (fun name hm => hreg name (List.mem_cons_of_mem _ hm)) _

theorem popUntilParen_error_kind {α : Type} (ctx : ExpressionContext α) (S : List String) :
    ∀ (Q : EvaluatorsQueue α) (f : Failure), popUntilParen ctx S Q = .error f →
      f = .undefinedBehaviour ∨ ∃ n, f = .unknownOperator n := by
  induction S with
  | nil =>
    intro Q f h
    simp only [popUntilParen, Except.error.injEq] at h
    exact Or.inl h.symm
  | cons top rest ih =>
    intro Q f h
    simp only [popUntilParen] at h
    by_cases htop : top = "("
    · simp [htop] at h
    · simp only [htop, if_false] at h
      cases hc : CreateEvaluator ctx top with
      | error g =>
        simp only [hc, Except.error.injEq] at h
        exact Or.inr ⟨top, h ▸ createEvaluator_error ctx top g hc⟩
      | ok e =>
        simp only [hc] at h
        exact ih _ f h

theorem popWhilePrecedence_error_kind {α : Type} (ctx : ExpressionContext α) (name : String)
    (S : List String) :
    ∀ (Q : EvaluatorsQueue α) (f : Failure), popWhilePrecedence ctx name S Q = .error f →
      f = .outOfRange ∨ ∃ n, f = .unknownOperator n := by
  induction S with
  | nil =>
    intro Q f h
    simp [popWhilePrecedence] at h
  | cons top rest ih =>
    intro Q f h
    simp only [popWhilePrecedence] at h
    cases hp1 : ctx.operatorsPrecedence.lookup name with
    | none =>
      simp only [hp1, Except.error.injEq] at h
      exact Or.inl h.symm
    | some p1 =>
      cases hp2 : ctx.operatorsPrecedence.lookup top with
      | none =>
        simp only [hp1, hp2, Except.error.injEq] at h
        exact Or.inl h.symm
      | some p2 =>
        simp only [hp1, hp2] at h
        by_cases hle : p1 ≤ p2
        · simp only [hle, if_true] at h
          cases hc : CreateEvaluator ctx top with
          | error g =>
            simp only [hc, Except.error.injEq] at h
            exact Or.inr ⟨top, h ▸ createEvaluator_error ctx top g hc⟩
          | ok e =>
            simp only [hc] at h
            exact ih _ f h
        · simp [hle] at h

theorem popWhilePrecedence_missing {α : Type} (ctx : ExpressionContext α) (name top : String)
    (rest : List String) (Q : EvaluatorsQueue α)
    (h : ctx.operatorsPrecedence.lookup name = none ∨
      ctx.operatorsPrecedence.lookup top = none) :
    popWhilePrecedence ctx name (top :: rest) Q = .error .outOfRange := by
  simp only [popWhilePrecedence]
  rcases h with h | h
  · simp [h]
  · rw [h]
    cases ctx.operatorsPrecedence.lookup name <;> rfl

theorem onOperator_error_kind {α : Type} [Zero α] (ctx : ExpressionContext α)
    (v : RPNVisitor α) (name : String) (f : Failure) (h : v.OnOperator ctx name = .error f) :
    f = .undefinedBehaviour ∨ f = .outOfRange ∨ (∃ n, f = .unknownOperator n) ∨
      f = .unrecognizedUnary name := by
  unfold RPNVisitor.OnOperator at h
  by_cases h1 : name = "("
  · simp [h1] at h
  · by_cases h2 : name = ")"
    · subst h2
      simp only [h1, if_true, if_false] at h
      cases hp : popUntilParen ctx v.operators v.evaluators with
      | ok r => simp [hp] at h
      | error g =>
        simp only [hp, Except.error.injEq] at h
        rcases popUntilParen_error_kind ctx _ _ g hp with hg | ⟨n, hg⟩
        · exact Or.inl (h ▸ hg)
        · exact Or.inr (Or.inr (Or.inl ⟨n, h ▸ hg⟩))
    · simp only [h1, h2, if_false] at h
      have hloop : ∀ Q : EvaluatorsQueue α,
          (match popWhilePrecedence ctx name v.operators Q with
            | .ok (operators, evaluators) =>
              (.ok { operators := name :: operators, evaluators := evaluators,
                     lastTokenReadWasOperator := true } : Except Failure (RPNVisitor α))
            | .error f => .error f) = .error f →
          f = .outOfRange ∨ ∃ n, f = .unknownOperator n := by
        intro Q hq
        cases hp : popWhilePrecedence ctx name v.operators Q with
        | ok r => simp [hp] at hq
        | error g =>
          simp only [hp, Except.error.injEq] at hq
          exact hq ▸ popWhilePrecedence_error_kind ctx name _ _ g hp
      cases hflag : v.lastTokenReadWasOperator with
      | false =>
        simp only [hflag, Bool.false_eq_true, if_false] at h
        rcases hloop _ h with hg | hg
        · exact Or.inr (Or.inl hg)
        · exact Or.inr (Or.inr (Or.inl hg))
      | true =>
        cases hu : (ctx.unaryOperators.lookup name).isSome with
        | false =>
          simp only [hflag, hu, if_true, Bool.false_eq_true, if_false,
            Except.error.injEq] at h
          exact Or.inr (Or.inr (Or.inr h.symm))
        | true =>
          simp only [hflag, hu, if_true] at h
          rcases hloop _ h with hg | hg
          · exact Or.inr (Or.inl hg)
          · exact Or.inr (Or.inr (Or.inl hg))

theorem createEvaluator_not_unary {α : Type} (ctx : ExpressionContext α)
    (hkeys : ∀ name, (ctx.unaryOperators.lookup name).isSome = true →
      (ctx.binaryOperators.lookup name).isSome = true)
    (name : String) (e : TokenEvaluator α) (h : CreateEvaluator ctx name = .ok e) :
    e.isUnaryFunction = false := by
  unfold CreateEvaluator at h
  cases hb : ctx.binaryOperators.lookup name with
  | some fn =>
    simp only [hb, Except.ok.injEq] at h
    subst h
    rfl
  | none =>
    cases hu : ctx.unaryOperators.lookup name with
    | some fn =>
      have := hkeys name (by simp [hu])
      simp [hb] at this
    | none => simp [hb, hu] at h

theorem simpleContext_unary_keys {α : Type} (D : DoubleOps α) (constants : List (String × α))
    (name : String)
    (h : ((CreateSimpleContext D constants).unaryOperators.lookup name).isSome = true) :
    ((CreateSimpleContext D constants).binaryOperators.lookup name).isSome = true := by
  by_cases hplus : name = "+"
  · subst hplus
    rfl
  · by_cases hminus : name = "-"
    · subst hminus
      rfl
    · have hb1 : (name == "+") = false := by simpa using hplus
      have hb2 : (name == "-") = false := by simpa using hminus
      simp [CreateSimpleContext, List.lookup, hb1, hb2] at h

theorem popUntilParen_steps {α : Type} (ctx : ExpressionContext α)
    (P : TokenEvaluator α → Prop)
    (hP : ∀ name e, CreateEvaluator ctx name = .ok e → P e) (S : List String) :
    ∀ (Q : EvaluatorsQueue α) (S1 : List String) (Q1 : EvaluatorsQueue α),
      popUntilParen ctx S Q = .ok (S1, Q1) → (∀ e ∈ Q, P e) → ∀ e ∈ Q1, P e := by
  induction S with
  | nil => intro Q S1 Q1 h; simp [popUntilParen] at h
  | cons top rest ih =>
    intro Q S1 Q1 h hQ
    simp only [popUntilParen] at h
    by_cases htop : top = "("
    · simp only [htop, if_true, Except.ok.injEq, Prod.mk.injEq] at h
      exact h.2 ▸ hQ
    · simp only [htop, if_false] at h
      cases hc : CreateEvaluator ctx top with
      | error g => simp [hc] at h
      | ok e =>
        simp only [hc] at h
        refine ih _ S1 Q1 h ?_
        intro x hx
        rcases List.mem_append.mp hx with hx | hx
        · exact hQ x hx
        · rw [List.mem_singleton.mp hx]
          exact hP top e hc

theorem popWhilePrecedence_steps {α : Type} (ctx : ExpressionContext α)
    (P : TokenEvaluator α → Prop)
    (hP : ∀ name e, CreateEvaluator ctx name = .ok e → P e) (name : String)
    (S : List String) :
    ∀ (Q : EvaluatorsQueue α) (S1 : List String) (Q1 : EvaluatorsQueue α),
      popWhilePrecedence ctx name S Q = .ok (S1, Q1) → (∀ e ∈ Q, P e) → ∀ e ∈ Q1, P e := by
  induction S with
  | nil =>
    intro Q S1 Q1 h hQ
    simp only [popWhilePrecedence, Except.ok.injEq, Prod.mk.injEq] at h
    exact h.2 ▸ hQ
  | cons top rest ih =>
    intro Q S1 Q1 h hQ
    simp only [popWhilePrecedence] at h
    cases hp1 : ctx.operatorsPrecedence.lookup name with
    | none => simp [hp1] at h
    | some p1 =>
      cases hp2 : ctx.operatorsPrecedence.lookup top with
      | none => simp [hp1, hp2] at h
      | some p2 =>
        simp only [hp1, hp2] at h
        by_cases hle : p1 ≤ p2
        · simp only [hle, if_true] at h
          cases hc : CreateEvaluator ctx top with
          | error g => simp [hc] at h
          | ok e =>
            simp only [hc] at h
            refine ih _ S1 Q1 h ?_
            intro x hx
            rcases List.mem_append.mp hx with hx | hx
            · exact hQ x hx
            · rw [List.mem_singleton.mp hx]
              exact hP top e hc
        · simp only [hle, if_false, Except.ok.injEq, Prod.mk.injEq] at h
          exact h.2 ▸ hQ

theorem drainOperators_steps {α : Type} (ctx : ExpressionContext α)
    (P : TokenEvaluator α → Prop)
    (hP : ∀ name e, CreateEvaluator ctx name = .ok e → P e) (S : List String) :
    ∀ (Q Q1 : EvaluatorsQueue α),
      drainOperators ctx S Q = .ok Q1 → (∀ e ∈ Q, P e) → ∀ e ∈ Q1, P e := by
  induction S with
  | nil =>
    intro Q Q1 h hQ
    simp only [drainOperators, Except.ok.injEq] at h
    exact h ▸ hQ
  | cons top rest ih =>
    intro Q Q1 h hQ
    simp only [drainOperators] at h
    cases hc : CreateEvaluator ctx top with
    | error g => simp [hc] at h
    | ok e =>
      simp only [hc] at h
      refine ih _ Q1 h ?_
      intro x hx
      rcases List.mem_append.mp hx with hx | hx
      · exact hQ x hx
      · rw [List.mem_singleton.mp hx]
        exact hP top e hc

theorem onOperator_steps {α : Type} [Zero α] (ctx : ExpressionContext α)
    (P : TokenEvaluator α → Prop)
    (hP : ∀ name e, CreateEvaluator ctx name = .ok e → P e)
    (hS : ∀ value, P (.ScalarEvaluator value))
    (v v1 : RPNVisitor α) (name : String) (h : v.OnOperator ctx name = .ok v1)
    (hQ : ∀ e ∈ v.evaluators, P e) : ∀ e ∈ v1.evaluators, P e := by
  unfold RPNVisitor.OnOperator at h
  by_cases h1 : name = "("
  · simp only [h1, if_true, Except.ok.injEq] at h
    subst h
    exact hQ
  · by_cases h2 : name = ")"
    · subst h2
      simp only [h1, if_true, if_false] at h
      cases hp : popUntilParen ctx v.operators v.evaluators with
      | error g => simp [hp] at h
      | ok r =>
        obtain ⟨S1, Q1⟩ := r
        simp only [hp, Except.ok.injEq] at h
        subst h
        exact popUntilParen_steps ctx P hP _ _ S1 Q1 hp hQ
    · simp only [h1, h2, if_false] at h
      have hloop : ∀ Q : EvaluatorsQueue α, (∀ e ∈ Q, P e) →
          (match popWhilePrecedence ctx name v.operators Q with
            | .ok (operators, evaluators) =>
              (.ok { operators := name :: operators, evaluators := evaluators,
                     lastTokenReadWasOperator := true } : Except Failure (RPNVisitor α))
            | .error f => .error f) = .ok v1 → ∀ e ∈ v1.evaluators, P e := by
        intro Q hQ0 hq
        cases hp : popWhilePrecedence ctx name v.operators Q with
        | error g => simp [hp] at hq
        | ok r =>
          obtain ⟨S1, Q1⟩ := r
          simp only [hp, Except.ok.injEq] at hq
          subst hq
          exact popWhilePrecedence_steps ctx P hP name _ _ S1 Q1 hp hQ0
      cases hflag : v.lastTokenReadWasOperator with
      | false =>
        simp only [hflag, Bool.false_eq_true, if_false] at h
        exact hloop _ hQ h
      | true =>
        cases hu : (ctx.unaryOperators.lookup name).isSome with
        | false => simp [hflag, hu] at h
        | true =>
          simp only [hflag, hu, if_true] at h
          refine hloop _ ?_ h
          intro x hx
          rcases List.mem_append.mp hx with hx | hx
          · exact hQ x hx
          · rw [List.mem_singleton.mp hx]
            exact hS 0

theorem visit_steps {α : Type} [Zero α] (ctx : ExpressionContext α)
    (P : TokenEvaluator α → Prop)
    (hP : ∀ name e, CreateEvaluator ctx name = .ok e → P e)
    (hS : ∀ value, P (.ScalarEvaluator value))
    (v v1 : RPNVisitor α) (ev : Event α) (h : v.visit ctx ev = .ok v1)
    (hQ : ∀ e ∈ v.evaluators, P e) : ∀ e ∈ v1.evaluators, P e := by
  have hpush : ∀ value, ∀ e ∈ v.evaluators ++ [TokenEvaluator.ScalarEvaluator value], P e := by
    intro value x hx
    rcases List.mem_append.mp hx with hx | hx
    · exact hQ x hx
    · rw [List.mem_singleton.mp hx]
      exact hS value
  cases ev with
  | OnDigit value =>
    simp only [RPNVisitor.visit, RPNVisitor.OnDigit, Except.ok.injEq] at h
    subst h
    exact hpush value
  | OnOperator name => exact onOperator_steps ctx P hP hS v v1 name h hQ
  | OnWord name =>
    simp only [RPNVisitor.visit, RPNVisitor.OnWord] at h
    cases hu : (ctx.unaryOperators.lookup name).isSome with
    | true =>
      simp only [hu, if_true] at h
      exact onOperator_steps ctx P hP hS _ v1 name h (hpush 0)
    | false =>
      simp only [hu, Bool.false_eq_true, if_false] at h
      cases hc : ctx.constantsTable.lookup name with
      | none => simp [hc] at h
      | some value =>
        simp only [hc, Except.ok.injEq] at h
        subst h
        exact hpush value

theorem visitAll_steps {α : Type} [Zero α] (ctx : ExpressionContext α)
    (P : TokenEvaluator α → Prop)
    (hP : ∀ name e, CreateEvaluator ctx name = .ok e → P e)
    (hS : ∀ value, P (.ScalarEvaluator value)) (events : List (Event α)) :
    ∀ (v v1 : RPNVisitor α), RPNVisitor.visitAll ctx v events = .ok v1 →
      (∀ e ∈ v.evaluators, P e) → ∀ e ∈ v1.evaluators, P e := by
  induction events with
  | nil =>
    intro v v1 h hQ
    simp only [RPNVisitor.visitAll, Except.ok.injEq] at h
    exact h ▸ hQ
  | cons ev rest ih =>
    intro v v1 h hQ
    rw [visitAll_cons] at h
    cases hv : v.visit ctx ev with
    | error g => simp [hv] at h
    | ok v2 =>
      simp only [hv] at h
      exact ih v2 v1 h (visit_steps ctx P hP hS v v2 ev hv hQ)

theorem convertEvents_steps {α : Type} [Zero α] (ctx : ExpressionContext α)
    (P : TokenEvaluator α → Prop)
    (hP : ∀ name e, CreateEvaluator ctx name = .ok e → P e)
    (hS : ∀ value, P (.ScalarEvaluator value)) (indeterminate : Bool)
    (events : List (Event α)) (q : EvaluatorsQueue α)
    (h : convertEvents ctx indeterminate events = .ok q) : ∀ e ∈ q, P e := by
  unfold convertEvents at h
  cases hv : RPNVisitor.visitAll ctx (RPNVisitor.create indeterminate) events with
  | error g => simp [hv] at h
  | ok v1 =>
    simp only [hv, RPNVisitor.GetExpressionAsRPN] at h
    refine drainOperators_steps ctx P hP _ _ q h ?_
    exact visitAll_steps ctx P hP hS events _ v1 hv (by simp [RPNVisitor.create])

theorem continuesOperator_iff (d : Char) :
    continuesOperator d = true ↔
      (d ≠ NUL ∧ isspace d = false ∧ isdigit d = false ∧ isAlphaOrUnderscore d = false ∧
        d ≠ '(' ∧ d ≠ ')') := by
  simp [continuesOperator, and_assoc]

theorem extractWord_of_no_space (ss : List Char) (h : ∀ c ∈ ss, isspace c = false) :
    extractWord ss = ss := by
  have hdrop : ss.dropWhile isspace = ss := by
    cases ss with
    | nil => rfl
    | cons c cs => simp [List.dropWhile, h c (List.mem_cons_self _ _)]
  rw [extractWord, hdrop]
  exact List.takeWhile_eq_self_iff.mpr (fun c hc => by simp [h c hc])

theorem handleOperator_run {α : Type} (c : Char) (rest : List Char)
    (hn : c ≠ NUL) (hs : isspace c = false) (hd : isdigit c = false)
    (ha : isAlphaOrUnderscore c = false) (ho : c ≠ '(') (hc : c ≠ ')') :
    HandleOperator (α := α) (c :: rest) =
      (rest.dropWhile continuesOperator,
        [.OnOperator (String.mk (c :: rest.takeWhile continuesOperator))]) := by
  have hrun : ∀ d ∈ c :: rest.takeWhile continuesOperator, isspace d = false := by
    intro d hm
    rcases List.mem_cons.mp hm with rfl | hm
    · exact hs
    · exact ((continuesOperator_iff d).mp (List.mem_takeWhile_imp hm)).2.1
  simp [HandleOperator, hn, hd, ha, ho, hc, extractWord_of_no_space _ hrun]

theorem createEvaluator_open_paren {α : Type} (ctx : ExpressionContext α)
    (hb : ctx.binaryOperators.lookup "(" = none) (hu : ctx.unaryOperators.lookup "(" = none) :
    CreateEvaluator ctx "(" = .error (.unknownOperator "(") := by
  simp [CreateEvaluator, hb, hu]

theorem count_open_cons_ne (top : String) (rest : List String) (h : top ≠ "(") :
    (top :: rest).count "(" = rest.count "(" := by
  rw [List.count_cons]
  simp [h]

theorem popUntilParen_count {α : Type} (ctx : ExpressionContext α) (S : List String) :
    ∀ (Q : EvaluatorsQueue α) (S1 : List String) (Q1 : EvaluatorsQueue α),
      popUntilParen ctx S Q = .ok (S1, Q1) → S.count "(" = S1.count "(" + 1 := by
  induction S with
  | nil => intro Q S1 Q1 h; simp [popUntilParen] at h
  | cons top rest ih =>
    intro Q S1 Q1 h
    simp only [popUntilParen] at h
    by_cases htop : top = "("
    · simp only [htop, if_true, Except.ok.injEq, Prod.mk.injEq] at h
      rw [htop, ← h.1]
      simp
    · simp only [htop, if_false] at h
      cases hc : CreateEvaluator ctx top with
      | error g => simp [hc] at h
      | ok e =>
        simp only [hc] at h
        rw [count_open_cons_ne top rest htop]
        exact ih _ S1 Q1 h

theorem popWhilePrecedence_count {α : Type} (ctx : ExpressionContext α)
    (hopen : ∀ e, CreateEvaluator ctx "(" ≠ .ok e) (name : String) (S : List String) :
    ∀ (Q : EvaluatorsQueue α) (S1 : List String) (Q1 : EvaluatorsQueue α),
      popWhilePrecedence ctx name S Q = .ok (S1, Q1) → S1.count "(" = S.count "(" := by
  induction S with
  | nil =>
    intro Q S1 Q1 h
    simp only [popWhilePrecedence, Except.ok.injEq, Prod.mk.injEq] at h
    rw [← h.1]
  | cons top rest ih =>
    intro Q S1 Q1 h
    simp only [popWhilePrecedence] at h
    cases hp1 : ctx.operatorsPrecedence.lookup name with
    | none => simp [hp1] at h
    | some p1 =>
      cases hp2 : ctx.operatorsPrecedence.lookup top with
      | none => simp [hp1, hp2] at h
      | some p2 =>
        simp only [hp1, hp2] at h
        by_cases hle : p1 ≤ p2
        · simp only [hle, if_true] at h
          cases hc : CreateEvaluator ctx top with
          | error g => simp [hc] at h
          | ok e =>
            simp only [hc] at h
            have htop : top ≠ "(" := fun e1 => hopen e (e1 ▸ hc)
            rw [count_open_cons_ne top rest htop]
            exact ih _ S1 Q1 h
        · simp only [hle, if_false, Except.ok.injEq, Prod.mk.injEq] at h
          rw [← h.1]

theorem drainOperators_count {α : Type} (ctx : ExpressionContext α)
    (hopen : ∀ e, CreateEvaluator ctx "(" ≠ .ok e) (S : List String) :
    ∀ (Q Q1 : EvaluatorsQueue α), drainOperators ctx S Q = .ok Q1 → S.count "(" = 0 := by
  induction S with
  | nil => intro Q Q1 _; rfl
  | cons top rest ih =>
    intro Q Q1 h
    simp only [drainOperators] at h
    cases hc : CreateEvaluator ctx top with
    | error g => simp [hc] at h
    | ok e =>
      simp only [hc] at h
      have htop : top ≠ "(" := fun e1 => hopen e (e1 ▸ hc)
      rw [count_open_cons_ne top rest htop]
      exact ih _ Q1 h

theorem onOperator_open_count {α : Type} [Zero α] (ctx : ExpressionContext α)
    (v v1 : RPNVisitor α) (h : v.OnOperator ctx "(" = .ok v1) :
    v1.operators.count "(" = v.operators.count "(" + 1 := by
  simp only [RPNVisitor.OnOperator, if_true, Except.ok.injEq] at h
  subst h
  simp

theorem onOperator_close_count {α : Type} [Zero α] (ctx : ExpressionContext α)
    (v v1 : RPNVisitor α) (h : v.OnOperator ctx ")" = .ok v1) :
    v.operators.count "(" = v1.operators.count "(" + 1 := by
  have hne : ¬ ((")" : String) = "(") := by decide
  simp only [RPNVisitor.OnOperator, hne, if_true, if_false] at h
  cases hp : popUntilParen ctx v.operators v.evaluators with
  | error g => simp [hp] at h
  | ok r =>
    obtain ⟨S1, Q1⟩ := r
    simp only [hp, Except.ok.injEq] at h
    subst h
    exact popUntilParen_count ctx _ _ S1 Q1 hp

theorem onOperator_other_count {α : Type} [Zero α] (ctx : ExpressionContext α)
    (hopen : ∀ e, CreateEvaluator ctx "(" ≠ .ok e)
    (v v1 : RPNVisitor α) (name : String) (h1 : name ≠ "(") (h2 : name ≠ ")")
    (h : v.OnOperator ctx name = .ok v1) :
    v1.operators.count "(" = v.operators.count "(" := by
  unfold RPNVisitor.OnOperator at h
  simp only [h1, h2, if_false] at h
  have hloop : ∀ Q : EvaluatorsQueue α,
      (match popWhilePrecedence ctx name v.operators Q with
        | .ok (operators, evaluators) =>
          (.ok { operators := name :: operators, evaluators := evaluators,
                 lastTokenReadWasOperator := true } : Except Failure (RPNVisitor α))
        | .error f => .error f) = .ok v1 →
      v1.operators.count "(" = v.operators.count "(" := by
    intro Q hq
    cases hp : popWhilePrecedence ctx name v.operators Q with
    | error g => simp [hp] at hq
    | ok r =>
      obtain ⟨S1, Q1⟩ := r
      simp only [hp, Except.ok.injEq] at hq
      subst hq
      simp only []
      rw [count_open_cons_ne name S1 h1]
      exact popWhilePrecedence_count ctx hopen name _ _ S1 Q1 hp
  cases hflag : v.lastTokenReadWasOperator with
  | false =>
    simp only [hflag, Bool.false_eq_true, if_false] at h
    exact hloop _ h
  | true =>
    cases hu : (ctx.unaryOperators.lookup name).isSome with
    | false => simp [hflag, hu] at h
    | true =>
      simp only [hflag, hu, if_true] at h
      exact hloop _ h

theorem visitAll_parenDepth {α : Type} [Zero α] (ctx : ExpressionContext α)
    (hopen : ∀ e, CreateEvaluator ctx "(" ≠ .ok e)
    (hu : ctx.unaryOperators.lookup "(" = none) (events : List (Event α)) :
    (∀ name, Event.OnWord name ∈ events → name ≠ ")") →
    ∀ (v v1 : RPNVisitor α), RPNVisitor.visitAll ctx v events = .ok v1 →
      parenDepth (v.operators.count "(") events = some (v1.operators.count "(") := by
  induction events with
  | nil =>
    intro _ v v1 h
    simp only [RPNVisitor.visitAll, Except.ok.injEq] at h
    subst h
    rfl
  | cons ev rest ih =>
    intro hw v v1 h
    have hw1 : ∀ name, Event.OnWord name ∈ rest → name ≠ ")" :=
      fun name hm => hw name (List.mem_cons_of_mem _ hm)
    rw [visitAll_cons] at h
    cases hv : v.visit ctx ev with
    | error g => simp [hv] at h
    | ok v2 =>
      simp only [hv] at h
      have hrest := ih hw1 v2 v1 h
      cases ev with
      | OnDigit value =>
        simp only [RPNVisitor.visit, RPNVisitor.OnDigit, Except.ok.injEq] at hv
        subst hv
        simpa [parenDepth] using hrest
      | OnWord name =>
        simp only [parenDepth]
        simp only [RPNVisitor.visit, RPNVisitor.OnWord] at hv
        cases hun : (ctx.unaryOperators.lookup name).isSome with
        | true =>
          simp only [hun, if_true] at hv
          have h1 : name ≠ "(" := by
            intro e
            rw [e, hu] at hun
            simp at hun
          have h2 : name ≠ ")" := hw name (List.mem_cons_self _ _)
          have := onOperator_other_count ctx hopen _ v2 name h1 h2 hv
          simp only [] at this
          rw [← this]
          exact hrest
        | false =>
          simp only [hun, Bool.false_eq_true, if_false] at hv
          cases hc : ctx.constantsTable.lookup name with
          | none => simp [hc] at hv
          | some value =>
            simp only [hc, Except.ok.injEq] at hv
            subst hv
            exact hrest
      | OnOperator name =>
        simp only [RPNVisitor.visit] at hv
        simp only [parenDepth]
        by_cases h1 : name = "("
        · subst h1
          simp only [if_true]
          rw [← onOperator_open_count ctx v v2 hv]
          exact hrest
        · by_cases h2 : name = ")"
          · subst h2
            simp only [h1, if_true, if_false]
            rw [onOperator_close_count ctx v v2 hv]
            exact hrest
          · simp only [h1, h2, if_false]
            rw [← onOperator_other_count ctx hopen v v2 name h1 h2 hv]
            exact hrest

theorem convertEvents_balanced {α : Type} [Zero α] (ctx : ExpressionContext α)
    (hb : ctx.binaryOperators.lookup "(" = none) (hu : ctx.unaryOperators.lookup "(" = none)
    (indeterminate : Bool) (events : List (Event α)) (q : EvaluatorsQueue α)
    (hw : ∀ name, Event.OnWord name ∈ events → name ≠ ")")
    (h : convertEvents ctx indeterminate events = .ok q) : balanced events = true := by
  have hopen : ∀ e, CreateEvaluator ctx "(" ≠ .ok e := by
    intro e he
    rw [createEvaluator_open_paren ctx hb hu] at he
    cases he
  unfold convertEvents at h
  cases hv : RPNVisitor.visitAll ctx (RPNVisitor.create indeterminate) events with
  | error g => simp [hv] at h
  | ok v1 =>
    simp only [hv, RPNVisitor.GetExpressionAsRPN] at h
    have hd := visitAll_parenDepth ctx hopen hu events hw _ v1 hv
    have h0 := drainOperators_count ctx hopen _ _ q h
    simp only [RPNVisitor.create, List.count_nil, h0] at hd
    simp [balanced, hd]

theorem skipWhitespaces_suffix (expr : List Char) : skipWhitespaces expr <:+ expr := by
  induction expr with
  | nil => exact List.suffix_refl _
  | cons c cs ih =>
    simp only [skipWhitespaces]
    split
    · exact List.IsSuffix.trans ih (List.suffix_cons c cs)
    · exact List.suffix_refl _

theorem handleDigit_of_not_isdigit {α : Type} (strtod : List Char → α × Nat)
    (expr : List Char) (h : isdigit (cur expr) = false) :
    HandleDigit strtod expr = (expr, []) := by
  simp [HandleDigit, h]

theorem handleDigit_of_isdigit {α : Type} (strtod : List Char → α × Nat)
    (expr : List Char) (h : isdigit (cur expr) = true) :
    HandleDigit strtod expr = (expr.drop (strtod expr).2, [.OnDigit (strtod expr).1]) := by
  simp [HandleDigit, h]

theorem handleDigit_suffix {α : Type} (strtod : List Char → α × Nat) (expr : List Char) :
    (HandleDigit strtod expr).1 <:+ expr := by
  cases h : isdigit (cur expr) with
  | false =>
    rw [handleDigit_of_not_isdigit strtod expr h]
  | true =>
    rw [handleDigit_of_isdigit strtod expr h]
    exact List.drop_suffix _ _

theorem handleDigit_length {α : Type} (strtod : List Char → α × Nat)
    (hs : strtodAdvances strtod) (expr : List Char) :
    (HandleDigit strtod expr).1.length + (HandleDigit strtod expr).2.length ≤ expr.length := by
  cases h : isdigit (cur expr) with
  | false =>
    rw [handleDigit_of_not_isdigit strtod expr h]
    simp
  | true =>
    rw [handleDigit_of_isdigit strtod expr h]
    have := hs expr h
    simp only [List.length_drop, List.length_singleton]
    omega

theorem handleWord_of_not {α : Type} (expr : List Char)
    (h : isAlphaOrUnderscore (cur expr) = false) : HandleWord (α := α) expr = (expr, []) := by
  simp [HandleWord, h]

theorem handleWord_of_word {α : Type} (expr : List Char)
    (h : isAlphaOrUnderscore (cur expr) = true) :
    HandleWord (α := α) expr =
      (expr.dropWhile isAlphaOrUnderscore,
        [.OnWord (String.mk (expr.takeWhile isAlphaOrUnderscore))]) := by
  simp [HandleWord, h]

theorem handleWord_suffix {α : Type} (expr : List Char) :
    (HandleWord (α := α) expr).1 <:+ expr := by
  cases h : isAlphaOrUnderscore (cur expr) with
  | false =>
    rw [handleWord_of_not expr h]
  | true =>
    rw [handleWord_of_word expr h]
    exact List.dropWhile_suffix _

theorem handleWord_length {α : Type} (expr : List Char) :
    (HandleWord (α := α) expr).1.length + (HandleWord (α := α) expr).2.length ≤
      expr.length := by
  cases h : isAlphaOrUnderscore (cur expr) with
  | false =>
    rw [handleWord_of_not expr h]
    simp
  | true =>
    rw [handleWord_of_word expr h]
    cases expr with
    | nil => exact absurd h (by decide)
    | cons c cs =>
      have hc : isAlphaOrUnderscore c = true := h
      have := (List.dropWhile_suffix isAlphaOrUnderscore (l := cs)).length_le
      simp only [List.dropWhile_cons, hc, if_true, List.length_singleton, List.length_cons,
        List.length_nil]
      omega

theorem handleOperator_suffix {α : Type} (expr : List Char) :
    (HandleOperator (α := α) expr).1 <:+ expr := by
  cases expr with
  | nil => exact List.suffix_refl _
  | cons c rest =>
    simp only [HandleOperator]
    split
    · exact List.suffix_refl _
    · split
      · exact List.suffix_cons c rest
      · split
        · exact List.suffix_cons c rest
        · exact List.IsSuffix.trans (List.dropWhile_suffix _) (List.suffix_cons c rest)

theorem handleOperator_length {α : Type} (expr : List Char) :
    (HandleOperator (α := α) expr).1.length + (HandleOperator (α := α) expr).2.length ≤
      expr.length := by
  cases expr with
  | nil => simp [HandleOperator]
  | cons c rest =>
    have := (List.dropWhile_suffix continuesOperator (l := rest)).length_le
    simp only [HandleOperator]
    split
    · simp
    · split
      · simp
      · split
        · simp
        · simp only [List.length_singleton, List.length_cons, List.length_nil]
          omega

theorem handleOperator_progress {α : Type} (c : Char) (rest : List Char)
    (hn : c ≠ NUL) (hd : isdigit c = false) (ha : isAlphaOrUnderscore c = false) :
    (HandleOperator (α := α) (c :: rest)).1.length < (c :: rest).length := by
  have := (List.dropWhile_suffix continuesOperator (l := rest)).length_le
  simp only [HandleOperator, hn, hd, ha, or_self, Bool.false_eq_true, if_false]
  split
  · simp
  · split
    · simp
    · simp only [List.length_cons]
      omega

theorem parseStep_suffix {α : Type} (strtod : List Char → α × Nat) (expr : List Char) :
    (parseStep strtod expr).1 <:+ expr := by
  simp only [parseStep]
  exact List.IsSuffix.trans (skipWhitespaces_suffix _)
    (List.IsSuffix.trans (handleOperator_suffix _)
      (List.IsSuffix.trans (handleWord_suffix _) (handleDigit_suffix strtod expr)))

theorem parseStep_length {α : Type} (strtod : List Char → α × Nat)
    (hs : strtodAdvances strtod) (expr : List Char) :
    (parseStep strtod expr).1.length + (parseStep strtod expr).2.length ≤ expr.length := by
  have h1 := handleDigit_length strtod hs expr
  have h2 := handleWord_length (α := α) (HandleDigit strtod expr).1
  have h3 := handleOperator_length (α := α) (HandleWord (α := α) (HandleDigit strtod expr).1).1
  have h4 := (skipWhitespaces_suffix
    (HandleOperator (α := α) (HandleWord (α := α) (HandleDigit strtod expr).1).1).1).length_le
  simp only [parseStep, List.length_append]
  omega

theorem parseStep_progress {α : Type} (strtod : List Char → α × Nat)
    (hs : strtodAdvances strtod) (expr : List Char) (hn : cur expr ≠ NUL) :
    (parseStep strtod expr).1.length < expr.length := by
  cases expr with
  | nil => exact absurd rfl hn
  | cons c cs =>
    have hc : c ≠ NUL := hn
    have hsk := fun e : List Char => (skipWhitespaces_suffix e).length_le
    have hop := fun e : List Char => (handleOperator_suffix (α := α) e).length_le
    have hwd := fun e : List Char => (handleWord_suffix (α := α) e).length_le
    simp only [parseStep]
    cases hd : isdigit c with
    | true =>
      have hd1 : isdigit (cur (c :: cs)) = true := hd
      have h1 := hs (c :: cs) hd1
      have h2 : (HandleDigit strtod (c :: cs)).1.length < (c :: cs).length := by
        rw [handleDigit_of_isdigit strtod _ hd1]
        simp only [List.length_drop, List.length_cons] at h1 ⊢
        omega
      have a := hsk (HandleOperator (α := α)
        (HandleWord (α := α) (HandleDigit strtod (c :: cs)).1).1).1
      have b := hop (HandleWord (α := α) (HandleDigit strtod (c :: cs)).1).1
      have d := hwd (HandleDigit strtod (c :: cs)).1
      omega
    | false =>
      have hd1 : isdigit (cur (c :: cs)) = false := hd
      simp only [handleDigit_of_not_isdigit strtod _ hd1]
      cases ha : isAlphaOrUnderscore c with
      | true =>
        have ha1 : isAlphaOrUnderscore (cur (c :: cs)) = true := ha
        have h2 : (HandleWord (α := α) (c :: cs)).1.length < (c :: cs).length := by
          rw [handleWord_of_word _ ha1]
          have := (List.dropWhile_suffix isAlphaOrUnderscore (l := cs)).length_le
          simp only [List.dropWhile_cons, ha, if_true, List.length_cons]
          omega
        have a := hsk (HandleOperator (α := α) (HandleWord (α := α) (c :: cs)).1).1
        have b := hop (HandleWord (α := α) (c :: cs)).1
        omega
      | false =>
        have ha1 : isAlphaOrUnderscore (cur (c :: cs)) = false := ha
        simp only [handleWord_of_not _ ha1]
        have h3 := handleOperator_progress (α := α) c cs hc hd ha
        have a := hsk (HandleOperator (α := α) (c :: cs)).1
        omega

theorem parseLoop_terminates {α : Type} (strtod : List Char → α × Nat)
    (hs : strtodAdvances strtod) (fuel : Nat) :
    ∀ expr : List Char, expr.length ≤ fuel →
      ∃ events, parseLoop strtod fuel expr = some events ∧ events.length ≤ expr.length := by
  induction fuel with
  | zero =>
    intro expr hlen
    have : expr = [] := List.length_eq_zero.mp (Nat.le_zero.mp hlen)
    subst this
    exact ⟨[], parseLoop_nil strtod 0, Nat.le_refl _⟩
  | succ fuel ih =>
    intro expr hlen
    by_cases hn : cur expr = NUL
    · refine ⟨[], ?_, Nat.zero_le _⟩
      unfold parseLoop
      simp [hn]
    · have hprog := parseStep_progress strtod hs expr hn
      have hbound := parseStep_length strtod hs expr
      obtain ⟨events, he, hl⟩ := ih (parseStep strtod expr).1 (by omega)
      refine ⟨(parseStep strtod expr).2 ++ events, ?_, ?_⟩
      · rw [parseLoop]
        simp [hn, he]
      · simp only [List.length_append]
        omega

theorem parseLoop_fuel_mono {α : Type} (strtod : List Char → α × Nat) (fuel : Nat) :
    ∀ (expr : List Char) (events : List (Event α)),
      parseLoop strtod fuel expr = some events →
      parseLoop strtod (fuel + 1) expr = some events := by
  induction fuel with
  | zero =>
    intro expr events h
    unfold parseLoop at h
    by_cases hn : cur expr = NUL
    · simp only [hn, if_true] at h
      unfold parseLoop
      simp [hn, h]
    · simp [hn] at h
  | succ fuel ih =>
    intro expr events h
    rw [parseLoop] at h
    by_cases hn : cur expr = NUL
    · simp only [hn, if_true] at h
      unfold parseLoop
      simp [hn, h]
    · simp only [hn, if_false] at h
      cases hr : parseLoop strtod fuel (parseStep strtod expr).1 with
      | none => simp [hr] at h
      | some evs =>
        simp only [hr, Option.some.injEq] at h
        rw [parseLoop]
        simp [hn, ih _ evs hr, h]

theorem parse_terminates {α : Type} (strtod : List Char → α × Nat)
    (hs : strtodAdvances strtod) (expr : List Char) :
    ∃ events, Parse strtod expr = some events ∧ events.length ≤ expr.length := by
  have hle := (skipWhitespaces_suffix expr).length_le
  obtain ⟨events, he, hl⟩ :=
    parseLoop_terminates strtod hs expr.length (skipWhitespaces expr) hle
  exact ⟨events, he, Nat.le_trans hl hle⟩

theorem strtodDigits_advances : strtodAdvances strtodDigits := by
  intro expr hd
  cases expr with
  | nil => exact absurd hd (by decide)
  | cons c cs =>
    have hc : isdigit c = true := hd
    have := (List.takeWhile_prefix isdigit (l := cs)).length_le
    simp only [strtodDigits, List.takeWhile_cons, hc, if_true, List.length_cons]
    omega

theorem handleOperator_events {α : Type} (expr : List Char) (name : String) :
    Event.OnWord name ∉ (HandleOperator (α := α) expr).2 := by
  cases expr with
  | nil => simp [HandleOperator]
  | cons c rest =>
    simp only [HandleOperator]
    split
    · simp
    · split
      · simp
      · split <;> simp

theorem handleWord_events {α : Type} (expr : List Char) (name : String)
    (h : Event.OnWord name ∈ (HandleWord (α := α) expr).2) : name ≠ ")" := by
  cases ha : isAlphaOrUnderscore (cur expr) with
  | false =>
    rw [handleWord_of_not expr ha] at h
    simp at h
  | true =>
    rw [handleWord_of_word expr ha] at h
    cases expr with
    | nil => exact absurd ha (by decide)
    | cons c cs =>
      have hc : isAlphaOrUnderscore c = true := ha
      simp only [List.takeWhile_cons, hc, if_true, List.mem_singleton, Event.OnWord.injEq] at h
      intro heq
      rw [heq] at h
      have hdata := congrArg String.data h
      simp only [String.data, List.cons.injEq] at hdata
      rw [← hdata.1] at hc
      exact absurd hc (by decide)

theorem parseStep_events {α : Type} (strtod : List Char → α × Nat) (expr : List Char)
    (name : String) (h : Event.OnWord name ∈ (parseStep strtod expr).2) : name ≠ ")" := by
  simp only [parseStep, List.mem_append] at h
  rcases h with (h | h) | h
  · cases hd : isdigit (cur expr) with
    | false =>
      rw [handleDigit_of_not_isdigit strtod expr hd] at h
      simp at h
    | true =>
      rw [handleDigit_of_isdigit strtod expr hd] at h
      simp at h
  · exact handleWord_events _ name h
  · exact absurd h (handleOperator_events _ name)

theorem parseLoop_events {α : Type} (strtod : List Char → α × Nat) (fuel : Nat) :
    ∀ (expr : List Char) (events : List (Event α)),
      parseLoop strtod fuel expr = some events →
      ∀ name, Event.OnWord name ∈ events → name ≠ ")" := by
  induction fuel with
  | zero =>
    intro expr events h name hm
    unfold parseLoop at h
    by_cases hn : cur expr = NUL
    · simp only [hn, if_true, Option.some.injEq] at h
      subst h
      simp at hm
    · simp [hn] at h
  | succ fuel ih =>
    intro expr events h name hm
    rw [parseLoop] at h
    by_cases hn : cur expr = NUL
    · simp only [hn, if_true, Option.some.injEq] at h
      subst h
      simp at hm
    · simp only [hn, if_false] at h
      cases hr : parseLoop strtod fuel (parseStep strtod expr).1 with
      | none => simp [hr] at h
      | some evs =>
        simp only [hr, Option.some.injEq] at h
        subst h
        rcases List.mem_append.mp hm with hm | hm
        · exact parseStep_events strtod expr name hm
        · exact ih _ evs hr name hm

theorem onOperator_not_malformed {α : Type} [Zero α] (ctx : ExpressionContext α)
    (v : RPNVisitor α) (name : String) (f : Failure) (h : v.OnOperator ctx name = .error f) :
    f ≠ .malformedExpression := by
  rcases onOperator_error_kind ctx v name f h with h | h | ⟨n, h⟩ | h <;>
    (rw [h]; intro e; cases e)

theorem visit_not_malformed {α : Type} [Zero α] (ctx : ExpressionContext α)
    (v : RPNVisitor α) (ev : Event α) (f : Failure) (h : v.visit ctx ev = .error f) :
    f ≠ .malformedExpression := by
  cases ev with
  | OnDigit value => simp [RPNVisitor.visit] at h
  | OnOperator name => exact onOperator_not_malformed ctx v name f h
  | OnWord name =>
    simp only [RPNVisitor.visit, RPNVisitor.OnWord] at h
    cases hu : (ctx.unaryOperators.lookup name).isSome with
    | true =>
      simp only [hu, if_true] at h
      exact onOperator_not_malformed ctx _ name f h
    | false =>
      simp only [hu, Bool.false_eq_true, if_false] at h
      cases hc : ctx.constantsTable.lookup name with
      | some value => simp [hc] at h
      | none =>
        simp only [hc, Except.error.injEq] at h
        rw [← h]
        intro e
        cases e

theorem visitAll_not_malformed {α : Type} [Zero α] (ctx : ExpressionContext α)
    (events : List (Event α)) :
    ∀ (v : RPNVisitor α) (f : Failure), RPNVisitor.visitAll ctx v events = .error f →
      f ≠ .malformedExpression := by
  induction events with
  | nil => intro v f h; simp [RPNVisitor.visitAll] at h
  | cons ev rest ih =>
    intro v f h
    rw [visitAll_cons] at h
    cases hv : v.visit ctx ev with
    | error g =>
      simp only [hv, Except.error.injEq] at h
      exact h ▸ visit_not_malformed ctx v ev g hv
    | ok v1 =>
      simp only [hv] at h
      exact ih v1 f h

theorem drainOperators_not_malformed {α : Type} (ctx : ExpressionContext α)
    (S : List String) :
    ∀ (Q : EvaluatorsQueue α) (f : Failure), drainOperators ctx S Q = .error f →
      f ≠ .malformedExpression := by
  induction S with
  | nil => intro Q f h; simp [drainOperators] at h
  | cons top rest ih =>
    intro Q f h
    simp only [drainOperators] at h
    cases hc : CreateEvaluator ctx top with
    | error g =>
      simp only [hc, Except.error.injEq] at h
      rw [← h, createEvaluator_error ctx top g hc]
      intro e
      cases e
    | ok e =>
      simp only [hc] at h
      exact ih _ f h

theorem convertEvents_not_malformed {α : Type} [Zero α] (ctx : ExpressionContext α)
    (indeterminate : Bool) (events : List (Event α)) (f : Failure)
    (h : convertEvents ctx indeterminate events = .error f) : f ≠ .malformedExpression := by
  unfold convertEvents at h
  cases hv : RPNVisitor.visitAll ctx (RPNVisitor.create indeterminate) events with
  | error g =>
    simp only [hv, Except.error.injEq] at h
    exact h ▸ visitAll_not_malformed ctx events _ g hv
  | ok v1 =>
    simp only [hv, RPNVisitor.GetExpressionAsRPN] at h
    exact drainOperators_not_malformed ctx _ _ f h

theorem evaluate_malformed_iff {α : Type} (e : TokenEvaluator α) (st : EvaluationContext α) :
    e.evaluate st = .error .malformedExpression ↔
      (∃ fn, e = .BinaryOpEvaluator fn) ∧ st.length < 2 := by
  cases e with
  | ScalarEvaluator value => simp [TokenEvaluator.evaluate]
  | UnaryFunctionEvaluator fn =>
    match st with
    | [] => simp [TokenEvaluator.evaluate]
    | [_] => simp [TokenEvaluator.evaluate]
    | _ :: _ :: _ => simp [TokenEvaluator.evaluate]
  | BinaryOpEvaluator fn =>
    match st with
    | [] => simp [TokenEvaluator.evaluate]
    | [_] => simp [TokenEvaluator.evaluate]
    | _ :: _ :: _ => simp [TokenEvaluator.evaluate]

theorem evaluateQueue_malformed_iff {α : Type} (q : EvaluatorsQueue α) :
    ∀ st : EvaluationContext α,
      evaluateQueue q st = .error .malformedExpression ↔
        ∃ pre fn post st1, q = pre ++ .BinaryOpEvaluator fn :: post ∧
          evaluateQueue pre st = .ok st1 ∧ st1.length < 2 := by
  induction q with
  | nil =>
    intro st
    simp [evaluateQueue]
  | cons e rest ih =>
    intro st
    constructor
    · intro h
      simp only [evaluateQueue] at h
      cases he : e.evaluate st with
      | error g =>
        simp only [he, Except.error.injEq] at h
        subst h
        obtain ⟨⟨fn, hfn⟩, hlen⟩ := (evaluate_malformed_iff e st).mp he
        exact ⟨[], fn, rest, st, by simp [hfn], rfl, hlen⟩
      | ok st1 =>
        simp only [he] at h
        obtain ⟨pre, fn, post, st2, hq, hpre, hlen⟩ := (ih st1).mp h
        exact ⟨e :: pre, fn, post, st2, by simp [hq], by simp [evaluateQueue, he, hpre], hlen⟩
    · rintro ⟨pre, fn, post, st1, hq, hpre, hlen⟩
      cases pre with
      | nil =>
        simp only [List.nil_append, List.cons.injEq] at hq
        simp only [evaluateQueue, Except.ok.injEq] at hpre
        subst hpre
        have he : e.evaluate st = .error .malformedExpression :=
          (evaluate_malformed_iff e st).mpr ⟨⟨fn, hq.1⟩, hlen⟩
        simp [evaluateQueue, he]
      | cons p pre1 =>
        simp only [List.cons_append, List.cons.injEq] at hq
        obtain ⟨hp, hrest⟩ := hq
        subst hp
        simp only [evaluateQueue] at hpre ⊢
        cases he : e.evaluate st with
        | error g => simp [he] at hpre
        | ok st2 =>
          simp only [he] at hpre ⊢
          exact (ih st2).mpr ⟨pre1, fn, post, st1, hrest, hpre, hlen⟩

theorem calculateEvents_malformed_iff {α : Type} [Zero α] (ctx : ExpressionContext α)
    (indeterminate : Bool) (events : List (Event α)) :
    calculateEvents ctx indeterminate events = .error .malformedExpression ↔
      ∃ q pre fn post st, convertEvents ctx indeterminate events = .ok q ∧
        q = pre ++ .BinaryOpEvaluator fn :: post ∧
        evaluateQueue pre [] = .ok st ∧ st.length < 2 := by
  unfold calculateEvents finalStackEvents
  cases hc : convertEvents ctx indeterminate events with
  | error g =>
    have hg := convertEvents_not_malformed ctx indeterminate events g hc
    constructor
    · intro h
      simp only [Except.error.injEq] at h
      exact absurd h hg
    · rintro ⟨q, pre, fn, post, st, hq, _⟩
      cases hq
  | ok q =>
    simp only []
    constructor
    · intro h
      cases hev : evaluateQueue q [] with
      | error g =>
        simp only [hev, Except.error.injEq] at h
        subst h
        obtain ⟨pre, fn, post, st, hq, hpre, hlen⟩ := (evaluateQueue_malformed_iff q []).mp hev
        exact ⟨q, pre, fn, post, st, rfl, hq, hpre, hlen⟩
      | ok st =>
        simp only [hev] at h
        cases st with
        | nil => simp [stackTop] at h
        | cons top below => simp [stackTop] at h
    · rintro ⟨q1, pre, fn, post, st, hq, hq1, hpre, hlen⟩
      simp only [Except.ok.injEq] at hq
      subst hq
      have := (evaluateQueue_malformed_iff q []).mpr ⟨pre, fn, post, st, hq1, hpre, hlen⟩
      simp [this]

theorem onOperator_close_open {α : Type} [Zero α] (ctx : ExpressionContext α)
    (S : List String) (Q : EvaluatorsQueue α) (b : Bool) :
    RPNVisitor.OnOperator ctx ⟨"(" :: S, Q, b⟩ ")" = .ok ⟨S, Q, b⟩ := by
  simp [RPNVisitor.OnOperator, popUntilParen]

theorem visitAll_groupedNumbers {α : Type} [Zero α] (ctx : ExpressionContext α)
    (vs : List α) :
    ∀ (S : List String) (Q : EvaluatorsQueue α),
      RPNVisitor.visitAll ctx ⟨S, Q, false⟩ (groupedNumbers vs) =
        .ok ⟨S, Q ++ vs.map TokenEvaluator.ScalarEvaluator, false⟩ := by
  induction vs with
  | nil => intro S Q; simp [groupedNumbers, RPNVisitor.visitAll]
  | cons v vs ih =>
    intro S Q
    simp only [groupedNumbers, visitAll_cons, RPNVisitor.visit, onOperator_open,
      RPNVisitor.OnDigit, onOperator_close_open, ih]
    simp

theorem evaluateQueue_scalars {α : Type} (vs : List α) :
    ∀ st : EvaluationContext α,
      evaluateQueue (vs.map TokenEvaluator.ScalarEvaluator) st = .ok (vs.reverse ++ st) := by
  induction vs with
  | nil => intro st; rfl
  | cons v vs ih =>
    intro st
    simp [evaluateQueue, evaluate_scalar, ih]

theorem stackTop_reverse {α : Type} (vs : List α) (h : vs ≠ []) :
    stackTop vs.reverse = .ok (vs.getLast h) := by
  have hsplit : vs.reverse = vs.getLast h :: vs.dropLast.reverse := by
    conv_lhs => rw [← List.dropLast_append_getLast h]
    simp
  rw [hsplit]
  rfl

theorem calculateEvents_ok_iff {α : Type} [Zero α] (ctx : ExpressionContext α)
    (indeterminate : Bool) (events : List (Event α)) (v : α) :
    calculateEvents ctx indeterminate events = .ok v ↔
      ∃ q below, convertEvents ctx indeterminate events = .ok q ∧
        evaluateQueue q [] = .ok (v :: below) := by
  unfold calculateEvents finalStackEvents
  cases hc : convertEvents ctx indeterminate events with
  | error g => simp
  | ok q =>
    cases hev : evaluateQueue q [] with
    | error g => simp [hev]
    | ok st =>
      cases st with
      | nil => simp [hev, stackTop]
      | cons top below => simp [hev, stackTop]

/-! ## Claims -/

/-- C1. Round trip against the parse tree: in every context, for every tree
of numeric literals and binary operators that are keys of `binaryOperators`
with a precedence above the one of `"("` (and are not the token `")"`), and
whatever the starting value of the flag, converting the fully parenthesised
token sequence of the tree gives exactly the operands-first traversal of the
tree as RPN queue; evaluating that queue leaves exactly one value on the value
stack, the structural value of the tree, and `Calculate` returns it. -/
theorem c1_round_trip {α : Type} [Zero α] (ctx : ExpressionContext α) (indeterminate : Bool)
    (t : Expr α) (h : t.admissible ctx = true) :
    ∃ q val, t.rpn ctx = some q ∧ t.value ctx = some val ∧
      convertEvents ctx indeterminate t.tokens = .ok q ∧
      evaluateQueue q [] = .ok [val] ∧
      finalStackEvents ctx indeterminate t.tokens = .ok [val] ∧
      calculateEvents ctx indeterminate t.tokens = .ok val := by
  obtain ⟨q, val, hq, hv⟩ := admissible_rpn_value ctx t h
  have hc : convertEvents ctx indeterminate t.tokens = .ok q := by
    simp [convertEvents, RPNVisitor.create, visitAll_tokens ctx t h q hq,
      RPNVisitor.GetExpressionAsRPN, drainOperators]
  have he := evaluateQueue_rpn ctx t q val hq hv []
  refine ⟨q, val, hq, hv, hc, he, ?_, ?_⟩
  · simp [finalStackEvents, hc, he]
  · simp [calculateEvents, finalStackEvents, hc, he, stackTop]

/-- Witness of C1: the tree of `((1+2)*3)` in the default context. -/
theorem c1_round_trip_witness :
    (Expr.binary "*" (.binary "+" (.number 1) (.number 2)) (.number 3)).admissible
        (CreateSimpleContext intOps []) = true ∧
    ∃ q val,
      (Expr.binary "*" (.binary "+" (.number 1) (.number 2)) (.number 3)).rpn
        (CreateSimpleContext intOps []) = some q ∧
      (Expr.binary "*" (.binary "+" (.number 1) (.number 2)) (.number 3)).value
        (CreateSimpleContext intOps []) = some val ∧
      convertEvents (CreateSimpleContext intOps []) false
        (Expr.binary "*" (.binary "+" (.number 1) (.number 2)) (.number 3)).tokens = .ok q ∧
      evaluateQueue q [] = .ok [val] ∧
      finalStackEvents (CreateSimpleContext intOps []) false
        (Expr.binary "*" (.binary "+" (.number 1) (.number 2)) (.number 3)).tokens = .ok [val] ∧
      calculateEvents (CreateSimpleContext intOps []) false
        (Expr.binary "*" (.binary "+" (.number 1) (.number 2)) (.number 3)).tokens = .ok val :=
  ⟨by decide, c1_round_trip (CreateSimpleContext intOps []) false
    (Expr.binary "*" (.binary "+" (.number 1) (.number 2)) (.number 3)) (by decide)⟩

/-- C3. In the default context a sign that follows a binary operator does not
negate the right operand: the dummy zero of the unary trick is queued before
the pending operator of higher or equal precedence is popped, so that
operator takes the zero as its right operand.  The tokens `a * - b` evaluate
to `(a * 0) - b` and `a - - b` to `(a - 0) - b`; `2 * -3` is -3 and `2 - -3`
is -1. -/
theorem c3_sign_after_binary_operator :
    (∀ (α : Type) [Zero α] (D : DoubleOps α) (constants : List (String × α))
      (indeterminate : Bool) (a b : α),
      calculateEvents (CreateSimpleContext D constants) indeterminate
        [.OnDigit a, .OnOperator "*", .OnOperator "-", .OnDigit b] =
        .ok (D.minus (D.multiplies a 0) b) ∧
      calculateEvents (CreateSimpleContext D constants) indeterminate
        [.OnDigit a, .OnOperator "-", .OnOperator "-", .OnDigit b] =
        .ok (D.minus (D.minus a 0) b)) ∧
    Calculate strtodDigits false (CreateSimpleContext intOps []) "2 * -3".toList =
      some (.ok (-3)) ∧
    Calculate strtodDigits true (CreateSimpleContext intOps []) "2 * -3".toList =
      some (.ok (-3)) ∧
    Calculate strtodDigits false (CreateSimpleContext intOps []) "2 - -3".toList =
      some (.ok (-1)) ∧
    Calculate strtodDigits true (CreateSimpleContext intOps []) "2 - -3".toList =
      some (.ok (-1)) := by
  refine ⟨?_, by decide, by decide, by decide, by decide⟩
  intro α _ D constants b0 a b
  exact ⟨rfl, rfl⟩

/-- C4. A leading sign in the default context is decided by the value that
the uninitialised member `lastTokenReadWasOperator` happens to hold.  When it
reads as true, `-(a+b)` evaluates to `0 - (a+b)`, `+a` to `0 + a` and
`-pi + a` to `(0 - pi) + a`; when it reads as false no dummy zero is queued and
each of the three fails with the malformed-expression error. -/
theorem c4_leading_sign :
    (∀ (α : Type) [Zero α] (D : DoubleOps α) (constants : List (String × α)) (a b pi : α),
      (calculateEvents (CreateSimpleContext D constants) true
          [.OnOperator "-", .OnOperator "(", .OnDigit a, .OnOperator "+", .OnDigit b,
            .OnOperator ")"] = .ok (D.minus 0 (D.plus a b)) ∧
        calculateEvents (CreateSimpleContext D constants) true
          [.OnOperator "+", .OnDigit a] = .ok (D.plus 0 a) ∧
        calculateEvents (CreateSimpleContext D (("pi", pi) :: constants)) true
          [.OnOperator "-", .OnWord "pi", .OnOperator "+", .OnDigit a] =
          .ok (D.plus (D.minus 0 pi) a)) ∧
      (calculateEvents (CreateSimpleContext D constants) false
          [.OnOperator "-", .OnOperator "(", .OnDigit a, .OnOperator "+", .OnDigit b,
            .OnOperator ")"] = .error .malformedExpression ∧
        calculateEvents (CreateSimpleContext D constants) false
          [.OnOperator "+", .OnDigit a] = .error .malformedExpression ∧
        calculateEvents (CreateSimpleContext D (("pi", pi) :: constants)) false
          [.OnOperator "-", .OnWord "pi", .OnOperator "+", .OnDigit a] =
          .error .malformedExpression)) ∧
    Calculate strtodDigits true (CreateSimpleContext intOps []) "-(10+3)".toList =
      some (.ok (-13)) ∧
    Calculate strtodDigits false (CreateSimpleContext intOps []) "-(10+3)".toList =
      some (.error .malformedExpression) := by
  refine ⟨?_, by decide, by decide⟩
  intro α _ D constants a b pi
  exact ⟨⟨rfl, rfl, rfl⟩, ⟨rfl, rfl, rfl⟩⟩

/-- C6. A named function that follows a binary operator loses its left
neighbour: in every context where the word `f` is a key of `unaryOperators`
only, with a precedence above the one of the binary operator `o`, the tokens
`a o f ( b )` queue two dummy zeros (one in `OnWord`, one in `OnOperator`), so
`o` is applied to a dummy zero and `f(b)`: the result is `o(0, f(b))`, and `a`
stays on the value stack below it. -/
theorem c6_function_right_operand {α : Type} [Zero α] (ctx : ExpressionContext α)
    (indeterminate : Bool) (f o : String) (fn : α → α) (g : α → α → α) (pf po : Int) (a b : α)
    (hf1 : f ≠ "(") (hf2 : f ≠ ")") (ho1 : o ≠ "(") (ho2 : o ≠ ")")
    (hfu : ctx.unaryOperators.lookup f = some fn)
    (hfb : ctx.binaryOperators.lookup f = none)
    (hpf : ctx.operatorsPrecedence.lookup f = some pf)
    (hob : ctx.binaryOperators.lookup o = some g)
    (hpo : ctx.operatorsPrecedence.lookup o = some po)
    (hlt : po < pf) :
    convertEvents ctx indeterminate
      [.OnDigit a, .OnOperator o, .OnWord f, .OnOperator "(", .OnDigit b, .OnOperator ")"] =
      .ok [.ScalarEvaluator a, .ScalarEvaluator 0, .ScalarEvaluator 0, .ScalarEvaluator b,
        .UnaryFunctionEvaluator fn, .BinaryOpEvaluator g] ∧
    finalStackEvents ctx indeterminate
      [.OnDigit a, .OnOperator o, .OnWord f, .OnOperator "(", .OnDigit b, .OnOperator ")"] =
      .ok [g 0 (fn b), a] ∧
    calculateEvents ctx indeterminate
      [.OnDigit a, .OnOperator o, .OnWord f, .OnOperator "(", .OnDigit b, .OnOperator ")"] =
      .ok (g 0 (fn b)) := by
  have hcf : CreateEvaluator ctx f = .ok (.UnaryFunctionEvaluator fn) := by
    simp [CreateEvaluator, hfb, hfu]
  have hnle : ¬ pf ≤ po := not_le.mpr hlt
  simp [calculateEvents, finalStackEvents, convertEvents, RPNVisitor.create,
    RPNVisitor.visitAll, RPNVisitor.visit, RPNVisitor.OnDigit, RPNVisitor.OnOperator,
    RPNVisitor.OnWord, popWhilePrecedence, popUntilParen, RPNVisitor.GetExpressionAsRPN,
    drainOperators, hcf, createEvaluator_binary _ _ _ hob, hf1, hf2, ho1, ho2, hfu, hpf, hpo,
    hnle, evaluateQueue, evaluate_binary, evaluate_unary, evaluate_scalar, stackTop]

/-- Witness of C6: `1 + sin(2)` and `3 * sin(2)` in the context of the test
driver, on the integers with negation registered under the name `sin`: the
results are `0 + (-2) = -2` and `0 * (-2) = 0`, not `1 + (-2) = -1` and
`3 * (-2) = -6`. -/
theorem c6_function_right_operand_witness :
    calculateEvents
      (testContext intOps (fun x => -x) (fun x => x) (fun x y => if x > y then 1 else 0) [])
      false
      [.OnDigit 1, .OnOperator "+", .OnWord "sin", .OnOperator "(", .OnDigit 2,
        .OnOperator ")"] = .ok (intOps.plus 0 (-2)) ∧
    intOps.plus 0 (-2) ≠ 1 + -2 ∧
    calculateEvents
      (testContext intOps (fun x => -x) (fun x => x) (fun x y => if x > y then 1 else 0) [])
      false
      [.OnDigit 3, .OnOperator "*", .OnWord "sin", .OnOperator "(", .OnDigit 2,
        .OnOperator ")"] = .ok (intOps.multiplies 0 (-2)) ∧
    intOps.multiplies 0 (-2) ≠ 3 * -2 :=
  ⟨(c6_function_right_operand
      (testContext intOps (fun x => -x) (fun x => x) (fun x y => if x > y then 1 else 0) [])
      false "sin" "+" (fun x => -x) intOps.plus 4 2 1 2
      (by decide) (by decide) (by decide) (by decide) rfl rfl rfl rfl rfl (by decide)).2.2,
    by decide,
    (c6_function_right_operand
      (testContext intOps (fun x => -x) (fun x => x) (fun x y => if x > y then 1 else 0) [])
      false "sin" "*" (fun x => -x) intOps.multiplies 4 3 3 2
      (by decide) (by decide) (by decide) (by decide) rfl rfl rfl rfl rfl (by decide)).2.2,
    by decide⟩

/-- Counterexample to C7: in the default context `1(2)` converts to the queue
of the two scalars 1 and 2; both stay on the value stack, and `Calculate`
returns the top one, 2, instead of failing.  The expression of the test
driver, `cos(sin(3)+10)*20` (on the integers, with negation as `sin` and the
identity as `cos`), also returns its value with a dummy zero left below it. -/
theorem c7_leftover_values_counterexample :
    (finalStack strtodDigits false (CreateSimpleContext intOps []) "1(2)".toList =
        some (.ok [2, 1]) ∧
      Calculate strtodDigits false (CreateSimpleContext intOps []) "1(2)".toList =
        some (.ok 2)) ∧
    (finalStack strtodDigits true (CreateSimpleContext intOps []) "1(2)".toList =
        some (.ok [2, 1]) ∧
      Calculate strtodDigits true (CreateSimpleContext intOps []) "1(2)".toList =
        some (.ok 2)) ∧
    (finalStack strtodDigits false
        (testContext intOps (fun x => -x) (fun x => x) (fun x y => if x > y then 1 else 0) [])
        "cos(sin(3)+10)*20".toList = some (.ok [140, 0]) ∧
      Calculate strtodDigits false
        (testContext intOps (fun x => -x) (fun x => x) (fun x y => if x > y then 1 else 0) [])
        "cos(sin(3)+10)*20".toList = some (.ok 140)) ∧
    ¬ (∀ (indeterminate : Bool) (expr : List Char) (st : EvaluationContext Int),
        finalStack strtodDigits indeterminate (CreateSimpleContext intOps []) expr =
          some (.ok st) → 1 < st.length →
        Calculate strtodDigits indeterminate (CreateSimpleContext intOps []) expr =
          some (.error .malformedExpression)) := by
  refine ⟨⟨by decide, by decide⟩, ⟨by decide, by decide⟩, ⟨by decide, by decide⟩, ?_⟩
  intro h
  exact absurd (h false "1(2)".toList [2, 1] (by decide) (by decide)) (by decide)

/-- C7 as amended: `Calculate` does not look at the depth of the final value
stack.  In every context it returns a value `v` exactly when the conversion
succeeds and the evaluation of the RPN queue leaves a value stack whose top is
`v`, whatever lies below; and every depth occurs: for numbers `v0 ... vn` the
calls of `v0(v1)...(vn)` leave all of them on the stack and return `vn`.  It
fails with the malformed-expression error exactly when the conversion
succeeds and a binary step of the queue is reached with fewer than two values
on the stack: never from the conversion, a unary-trick step, the final
`top()` or the depth of the final stack. -/
theorem c7_result_is_top_of_final_stack :
    (∀ (α : Type) [Zero α] (strtod : List Char → α × Nat) (indeterminate : Bool)
      (ctx : ExpressionContext α) (expr : List Char),
      (∀ v : α, Calculate strtod indeterminate ctx expr = some (.ok v) ↔
        ∃ events q below, Parse strtod expr = some events ∧
          convertEvents ctx indeterminate events = .ok q ∧
          evaluateQueue q [] = .ok (v :: below)) ∧
      (Calculate strtod indeterminate ctx expr = some (.error .malformedExpression) ↔
        ∃ events q pre fn post st, Parse strtod expr = some events ∧
          convertEvents ctx indeterminate events = .ok q ∧
          q = pre ++ .BinaryOpEvaluator fn :: post ∧
          evaluateQueue pre [] = .ok st ∧ st.length < 2)) ∧
    (∀ (α : Type) [Zero α] (ctx : ExpressionContext α) (indeterminate : Bool) (v0 : α)
      (vs : List α),
      convertEvents ctx indeterminate (.OnDigit v0 :: groupedNumbers vs) =
        .ok ((v0 :: vs).map TokenEvaluator.ScalarEvaluator) ∧
      finalStackEvents ctx indeterminate (.OnDigit v0 :: groupedNumbers vs) =
        .ok (v0 :: vs).reverse ∧
      calculateEvents ctx indeterminate (.OnDigit v0 :: groupedNumbers vs) =
        .ok ((v0 :: vs).getLast (List.cons_ne_nil v0 vs))) ∧
    (∀ indeterminate : Bool,
      Parse strtodDigits "1(2)(3)".toList = some (.OnDigit 1 :: groupedNumbers [2, 3]) ∧
      finalStack strtodDigits indeterminate (CreateSimpleContext intOps [])
        "1(2)(3)".toList = some (.ok [3, 2, 1]) ∧
      Calculate strtodDigits indeterminate (CreateSimpleContext intOps [])
        "1(2)(3)".toList = some (.ok 3)) := by
  refine ⟨?_, ?_, ?_⟩
  · intro α _ strtod b0 ctx expr
    unfold Calculate
    cases hp : Parse strtod expr with
    | none => simp
    | some events =>
      simp only [Option.map_some', Option.some.injEq]
      refine ⟨?_, ?_⟩
      · intro v
        constructor
        · intro h
          obtain ⟨q, below, hc, he⟩ := (calculateEvents_ok_iff ctx b0 events v).mp h
          exact ⟨events, q, below, rfl, hc, he⟩
        · rintro ⟨events1, q, below, he1, hc, he⟩
          subst he1
          exact (calculateEvents_ok_iff ctx b0 events v).mpr ⟨q, below, hc, he⟩
      · constructor
        · intro h
          obtain ⟨q, pre, fn, post, st, hc, hq, hpre, hlen⟩ :=
            (calculateEvents_malformed_iff ctx b0 events).mp h
          exact ⟨events, q, pre, fn, post, st, rfl, hc, hq, hpre, hlen⟩
        · rintro ⟨events1, q, pre, fn, post, st, he1, hc, hq, hpre, hlen⟩
          subst he1
          exact (calculateEvents_malformed_iff ctx b0 events).mpr
            ⟨q, pre, fn, post, st, hc, hq, hpre, hlen⟩
  · intro α _ ctx b0 v0 vs
    have hconv : convertEvents ctx b0 (.OnDigit v0 :: groupedNumbers vs) =
        .ok ((v0 :: vs).map TokenEvaluator.ScalarEvaluator) := by
      simp [convertEvents, visitAll_cons, RPNVisitor.visit, RPNVisitor.OnDigit,
        RPNVisitor.create, visitAll_groupedNumbers, RPNVisitor.GetExpressionAsRPN,
        drainOperators]
    have hfin : finalStackEvents ctx b0 (.OnDigit v0 :: groupedNumbers vs) =
        .ok (v0 :: vs).reverse := by
      rw [finalStackEvents, hconv]
      simp only []
      rw [evaluateQueue_scalars]
      simp
    refine ⟨hconv, hfin, ?_⟩
    rw [calculateEvents, hfin]
    exact stackTop_reverse (v0 :: vs) (List.cons_ne_nil v0 vs)
  · intro b0
    cases b0 <;> decide

/-- C8. On the empty expression, and on every expression made of whitespace
only, the scanner makes no call, the RPN queue and the final value stack are
empty, and `Calculate` reads the top of the empty stack: no exception is
raised, the behaviour is undefined. -/
theorem c8_empty_input {α : Type} [Zero α] (strtod : List Char → α × Nat)
    (indeterminate : Bool) (ctx : ExpressionContext α) (expr : List Char)
    (h : ∀ c ∈ expr, isspace c = true) :
    Parse strtod expr = some [] ∧
    ConvertToRPN strtod indeterminate expr ctx = some (.ok []) ∧
    finalStack strtod indeterminate ctx expr = some (.ok []) ∧
    Calculate strtod indeterminate ctx expr = some (.error .undefinedBehaviour) ∧
    Calculate strtod indeterminate ctx expr ≠ some (.error .malformedExpression) := by
  have hp : Parse strtod expr = some [] := by
    simp [Parse, skipWhitespaces_of_all_isspace expr h, parseLoop_nil]
  refine ⟨hp, ?_, ?_, ?_, ?_⟩ <;>
    simp [ConvertToRPN, finalStack, Calculate, hp, convertEvents, finalStackEvents,
      calculateEvents, RPNVisitor.visitAll, RPNVisitor.create, RPNVisitor.GetExpressionAsRPN,
      drainOperators, evaluateQueue, stackTop]

/-- Witness of C8: the expression of two blanks in the default context. -/
theorem c8_empty_input_witness :
    (∀ c ∈ "  ".toList, isspace c = true) ∧
    Calculate strtodDigits false (CreateSimpleContext intOps []) "  ".toList =
      some (.error .undefinedBehaviour) :=
  ⟨by decide,
    (c8_empty_input strtodDigits false (CreateSimpleContext intOps []) "  ".toList
      (by decide)).2.2.2.1⟩

/-- C9. Whitespace after a number is not skipped before `HandleOperator`
runs: the blank starts an operator run, and when nothing but a parenthesis or
the end of input follows, the token extracted from the run is the empty
string.  So `1+2 ` makes one call more than `1+2`, namely `OnOperator("")`,
and fails where `1+2` gives 3; likewise `(1+2 )` and `( 1 + 2 )` fail where
`(1+2)` gives 3. -/
theorem c9_whitespace_after_number :
    (Parse strtodDigits "1+2".toList =
        some [.OnDigit 1, .OnOperator "+", .OnDigit 2] ∧
      Parse strtodDigits "1+2 ".toList =
        some [.OnDigit 1, .OnOperator "+", .OnDigit 2, .OnOperator ""] ∧
      Parse strtodDigits "(1+2)".toList =
        some [.OnOperator "(", .OnDigit 1, .OnOperator "+", .OnDigit 2, .OnOperator ")"] ∧
      Parse strtodDigits "(1+2 )".toList =
        some [.OnOperator "(", .OnDigit 1, .OnOperator "+", .OnDigit 2, .OnOperator "",
          .OnOperator ")"] ∧
      Parse strtodDigits "( 1 + 2 )".toList =
        some [.OnOperator "(", .OnDigit 1, .OnOperator "+", .OnDigit 2, .OnOperator "",
          .OnOperator ")"]) ∧
    (∀ indeterminate : Bool,
      Calculate strtodDigits indeterminate (CreateSimpleContext intOps []) "1+2".toList =
        some (.ok 3) ∧
      Calculate strtodDigits indeterminate (CreateSimpleContext intOps []) "1+2 ".toList =
        some (.error .outOfRange) ∧
      Calculate strtodDigits indeterminate (CreateSimpleContext intOps []) "(1+2)".toList =
        some (.ok 3) ∧
      Calculate strtodDigits indeterminate (CreateSimpleContext intOps []) "(1+2 )".toList =
        some (.error .outOfRange) ∧
      Calculate strtodDigits indeterminate (CreateSimpleContext intOps []) "( 1 + 2 )".toList =
        some (.error .outOfRange)) := by
  refine ⟨by decide, ?_⟩
  intro b0
  cases b0 <;> decide

/-- C10. Boundary case: in every context and whatever the starting value of
the flag, a single number `v` converts to the queue `[Scalar v]` and evaluates
to `v`, and a single word that is a key of `constantsTable` and not of
`unaryOperators` converts to `[Scalar constantsTable[c]]` and evaluates to
that value.  On the text: an expression that `strtod` reads whole gives the
one call `OnDigit`, and an expression of letters and underscores gives the one
call `OnWord` with the whole text. -/
theorem c10_single_operand :
    (∀ (α : Type) [Zero α] (ctx : ExpressionContext α) (indeterminate : Bool) (v : α),
      convertEvents ctx indeterminate [.OnDigit v] = .ok [.ScalarEvaluator v] ∧
      finalStackEvents ctx indeterminate [.OnDigit v] = .ok [v] ∧
      calculateEvents ctx indeterminate [.OnDigit v] = .ok v) ∧
    (∀ (α : Type) [Zero α] (ctx : ExpressionContext α) (indeterminate : Bool) (c : String)
      (x : α),
      ctx.unaryOperators.lookup c = none → ctx.constantsTable.lookup c = some x →
      convertEvents ctx indeterminate [.OnWord c] = .ok [.ScalarEvaluator x] ∧
      finalStackEvents ctx indeterminate [.OnWord c] = .ok [x] ∧
      calculateEvents ctx indeterminate [.OnWord c] = .ok x) ∧
    (∀ (α : Type) [Zero α] (strtod : List Char → α × Nat) (ctx : ExpressionContext α)
      (indeterminate : Bool) (expr : List Char) (v : α),
      isdigit (cur expr) = true → strtod expr = (v, expr.length) →
      Parse strtod expr = some [.OnDigit v] ∧
      Calculate strtod indeterminate ctx expr = some (.ok v)) ∧
    (∀ (α : Type) [Zero α] (strtod : List Char → α × Nat) (ctx : ExpressionContext α)
      (indeterminate : Bool) (expr : List Char) (x : α),
      expr ≠ [] → (∀ c ∈ expr, isAlphaOrUnderscore c = true) →
      ctx.unaryOperators.lookup (String.mk expr) = none →
      ctx.constantsTable.lookup (String.mk expr) = some x →
      Parse strtod expr = some [.OnWord (String.mk expr)] ∧
      Calculate strtod indeterminate ctx expr = some (.ok x)) := by
  refine ⟨?_, ?_, ?_, ?_⟩
  · intro α _ ctx b0 v
    exact ⟨rfl, rfl, rfl⟩
  · intro α _ ctx b0 c x hu hc
    simp [convertEvents, finalStackEvents, calculateEvents, RPNVisitor.visitAll,
      RPNVisitor.visit, RPNVisitor.OnWord, hu, hc, RPNVisitor.create,
      RPNVisitor.GetExpressionAsRPN, drainOperators, evaluateQueue, evaluate_scalar, stackTop]
  · intro α _ strtod ctx b0 expr v hd hs
    have hp : Parse strtod expr = some [.OnDigit v] := parse_single_number strtod expr v hd hs
    exact ⟨hp, by simp [Calculate, hp]; rfl⟩
  · intro α _ strtod ctx b0 expr x hne hall hu hc
    have hp : Parse strtod expr = some [.OnWord (String.mk expr)] :=
      parse_single_word strtod expr hne hall
    refine ⟨hp, ?_⟩
    simp [Calculate, hp, convertEvents, finalStackEvents, calculateEvents, RPNVisitor.visitAll,
      RPNVisitor.visit, RPNVisitor.OnWord, hu, hc, RPNVisitor.create,
      RPNVisitor.GetExpressionAsRPN, drainOperators, evaluateQueue, evaluate_scalar, stackTop]

/-- Witness of C10: the constant `myConst` of the default context built with
`myConst = 20`, as a word and as text, and the number 42 as text. -/
theorem c10_single_operand_witness :
    calculateEvents (CreateSimpleContext intOps [("myConst", 20)]) false [.OnWord "myConst"] =
      .ok 20 ∧
    Calculate strtodDigits false (CreateSimpleContext intOps [("myConst", 20)])
      "42".toList = some (.ok 42) ∧
    Calculate strtodDigits false (CreateSimpleContext intOps [("myConst", 20)])
      "myConst".toList = some (.ok 20) :=
  ⟨(c10_single_operand.2.1 Int (CreateSimpleContext intOps [("myConst", 20)]) false "myConst"
      20 rfl rfl).2.2,
    (c10_single_operand.2.2.1 Int strtodDigits (CreateSimpleContext intOps [("myConst", 20)])
      false "42".toList 42 (by decide) (by decide)).2,
    (c10_single_operand.2.2.2 Int strtodDigits (CreateSimpleContext intOps [("myConst", 20)])
      false "myConst".toList 20 (by decide) (by decide) rfl rfl).2⟩

/-- C11. The unary-trick step does not check the depth of the value stack:
for every unary function, applied to a stack of fewer than two values
`UnaryFunctionEvaluator::evaluate` calls `top()` or `pop()` on an empty stack,
which is undefined behaviour, and raises no malformed-expression error.  So
in every context where `"!"` is a key of `unaryOperators` only, `Calculate` on
the expression `!` ends the same way, whatever the starting value of the
flag. -/
theorem c11_unary_step_underflow :
    (∀ (α : Type) (fn : α → α) (evaluation : EvaluationContext α),
      evaluation.length < 2 →
      (TokenEvaluator.UnaryFunctionEvaluator fn).evaluate evaluation =
        .error .undefinedBehaviour) ∧
    (∀ (α : Type) [Zero α] (strtod : List Char → α × Nat) (ctx : ExpressionContext α)
      (indeterminate : Bool) (fn : α → α),
      ctx.unaryOperators.lookup "!" = some fn → ctx.binaryOperators.lookup "!" = none →
      Parse strtod "!".toList = some [.OnOperator "!"] ∧
      Calculate strtod indeterminate ctx "!".toList = some (.error .undefinedBehaviour)) := by
  refine ⟨?_, ?_⟩
  · intro α fn evaluation h
    match evaluation, h with
    | [], _ => rfl
    | [_], _ => rfl
    | _ :: _ :: _, h => exact absurd h (by simp only [List.length_cons]; omega)
  · intro α _ strtod ctx b0 fn hu hb
    have hp : Parse strtod "!".toList = some [.OnOperator "!"] := rfl
    refine ⟨hp, ?_⟩
    have hc : CreateEvaluator ctx "!" = .ok (.UnaryFunctionEvaluator fn) := by
      simp [CreateEvaluator, hu, hb]
    rw [Calculate, hp]
    cases b0 <;>
      simp [calculateEvents, finalStackEvents, convertEvents,
        RPNVisitor.create, RPNVisitor.visitAll, RPNVisitor.visit, RPNVisitor.OnOperator,
        popWhilePrecedence, RPNVisitor.GetExpressionAsRPN, drainOperators, hc, hu,
        evaluateQueue, TokenEvaluator.evaluate]

/-- Witness of C11: the default context with negation added as the unary
operator `!`. -/
theorem c11_unary_step_underflow_witness :
    (addUnaryOperator (CreateSimpleContext intOps []) "!" (fun x => -x)).unaryOperators.lookup
      "!" = some (fun x => -x) ∧
    (addUnaryOperator (CreateSimpleContext intOps []) "!" (fun x => -x)).binaryOperators.lookup
      "!" = none ∧
    (TokenEvaluator.UnaryFunctionEvaluator (fun x : Int => -x)).evaluate [5] =
      .error .undefinedBehaviour ∧
    Calculate strtodDigits true
      (addUnaryOperator (CreateSimpleContext intOps []) "!" (fun x => -x)) "!".toList =
      some (.error .undefinedBehaviour) :=
  ⟨rfl, rfl, c11_unary_step_underflow.1 Int (fun x => -x) [5] (by decide),
    (c11_unary_step_underflow.2 Int strtodDigits
      (addUnaryOperator (CreateSimpleContext intOps []) "!" (fun x => -x)) true (fun x => -x)
      rfl rfl).2⟩

/-- C12. Binary step stack effect: for every binary function `fn`, applying
`BinaryOp(fn)` to a stack whose top is `r` with `l` just below replaces the
two by `fn(l, r)` and leaves the entries below as they are; applied to a stack
of fewer than two entries it raises the malformed-expression error and leaves
the stack as it was.  So in the default context `a - b` is `minus(a, b)`. -/
theorem c12_binary_step :
    (∀ (α : Type) (fn : α → α → α) (l r : α) (below : EvaluationContext α),
      (TokenEvaluator.BinaryOpEvaluator fn).evaluate (r :: l :: below) =
        .ok (fn l r :: below)) ∧
    (∀ (α : Type) (fn : α → α → α) (evaluation : EvaluationContext α),
      evaluation.length < 2 →
      (TokenEvaluator.BinaryOpEvaluator fn).evaluate evaluation =
        .error .malformedExpression ∧
      (TokenEvaluator.BinaryOpEvaluator fn).evaluateInPlace evaluation =
        (evaluation, some .malformedExpression)) ∧
    (∀ (α : Type) [Zero α] (D : DoubleOps α) (constants : List (String × α))
      (indeterminate : Bool) (a b : α),
      calculateEvents (CreateSimpleContext D constants) indeterminate
        [.OnDigit a, .OnOperator "-", .OnDigit b] = .ok (D.minus a b)) := by
  refine ⟨?_, ?_, ?_⟩
  · intro α fn l r below
    exact evaluate_binary fn r l below
  · intro α fn evaluation h
    simp [TokenEvaluator.evaluate, TokenEvaluator.evaluateInPlace, h]
  · intro α _ D constants b0 a b
    rfl

/-- Witness of C12: subtraction applied to the one-entry stack `[5]`. -/
theorem c12_binary_step_witness :
    ([5] : EvaluationContext Int).length < 2 ∧
    (TokenEvaluator.BinaryOpEvaluator intOps.minus).evaluate [5] =
      .error .malformedExpression ∧
    (TokenEvaluator.BinaryOpEvaluator intOps.minus).evaluateInPlace [5] =
      ([5], some .malformedExpression) :=
  ⟨by decide, c12_binary_step.2.1 Int intOps.minus [5] (by decide)⟩

/-- C13. A closing parenthesis with no `"("` on the operator stack is not
reported: in every context the `")"` branch of `OnOperator` pops the stack
without testing for emptiness, so when the stack holds no `"("` the call ends
by reading the top of an empty stack (undefined behaviour), unless creating
the step of a popped name fails first with the unknown-operator error.  In
the default context `)` and `1+2)` both end in undefined behaviour. -/
theorem c13_unmatched_closing_parenthesis :
    (∀ (α : Type) [Zero α] (ctx : ExpressionContext α) (v : RPNVisitor α),
      "(" ∉ v.operators →
      (v.OnOperator ctx ")" = .error .undefinedBehaviour ∨
        ∃ name ∈ v.operators, v.OnOperator ctx ")" = .error (.unknownOperator name)) ∧
      ((∀ name ∈ v.operators, ∃ e, CreateEvaluator ctx name = .ok e) →
        v.OnOperator ctx ")" = .error .undefinedBehaviour)) ∧
    (∀ indeterminate : Bool,
      Calculate strtodDigits indeterminate (CreateSimpleContext intOps []) ")".toList =
        some (.error .undefinedBehaviour) ∧
      Calculate strtodDigits indeterminate (CreateSimpleContext intOps []) "1+2)".toList =
        some (.error .undefinedBehaviour)) := by
  refine ⟨?_, ?_⟩
  · intro α _ ctx v hno
    have hstep : v.OnOperator ctx ")" =
        match popUntilParen ctx v.operators v.evaluators with
        | .ok (operators, evaluators) =>
          .ok { v with operators := operators, evaluators := evaluators }
        | .error f => .error f := by
      simp [RPNVisitor.OnOperator]
    refine ⟨?_, ?_⟩
    · rcases popUntilParen_without_open ctx v.operators hno v.evaluators with h | ⟨n, hm, h⟩
      · exact Or.inl (by rw [hstep, h])
      · exact Or.inr ⟨n, hm, by rw [hstep, h]⟩
    · intro hreg
      rw [hstep, popUntilParen_registered_without_open ctx v.operators hno hreg]
  · intro b0
    cases b0 <;> decide

/-- Witness of C13: the visitor as it is after `1+2` in the default context,
with `"+"` alone on the operator stack. -/
theorem c13_unmatched_closing_parenthesis_witness :
    "(" ∉ ["+"] ∧
    (∀ name ∈ ["+"], ∃ e, CreateEvaluator (CreateSimpleContext intOps []) name = .ok e) ∧
    RPNVisitor.OnOperator (CreateSimpleContext intOps [])
      ⟨["+"], [.ScalarEvaluator 1, .ScalarEvaluator 2], false⟩ ")" =
      .error .undefinedBehaviour :=
  ⟨by decide, fun name hm => by
      rw [List.mem_singleton.mp hm]
      exact ⟨_, rfl⟩,
    (c13_unmatched_closing_parenthesis.1 Int (CreateSimpleContext intOps [])
      ⟨["+"], [.ScalarEvaluator 1, .ScalarEvaluator 2], false⟩ (by decide)).2
      (fun name hm => by
        rw [List.mem_singleton.mp hm]
        exact ⟨_, rfl⟩)⟩

/-- C14. Unrecognized unary: in every context, for every symbol `s` other than
`"("` and `")"` that is not a key of `unaryOperators`, the call
`OnOperator(s)` made while the flag is set fails with the unrecognized-unary
error for `s` and leaves the operator stack, the output queue and the flag as
they were; in the default context `1 + * 2` fails this way.  At the start of
an expression the flag is the uninitialised member: `*5` fails this way when
it reads as true, and when it reads as false `*` is pushed as a binary
operator, the conversion succeeds with the queue `5 *`, and the failure is the
malformed-expression error of the evaluation. -/
theorem c14_unrecognized_unary :
    (∀ (α : Type) [Zero α] (ctx : ExpressionContext α) (v : RPNVisitor α) (s : String),
      s ≠ "(" → s ≠ ")" → ctx.unaryOperators.lookup s = none →
      v.lastTokenReadWasOperator = true →
      v.OnOperator ctx s = .error (.unrecognizedUnary s) ∧
      v.OnOperatorInPlace ctx s = (v, some (.unrecognizedUnary s))) ∧
    (∀ indeterminate : Bool,
      Calculate strtodDigits indeterminate (CreateSimpleContext intOps []) "1 + * 2".toList =
        some (.error (.unrecognizedUnary "*"))) ∧
    (∀ (α : Type) [Zero α] (D : DoubleOps α) (constants : List (String × α)) (x : α),
      convertEvents (CreateSimpleContext D constants) true
        [.OnOperator "*", .OnDigit x] = .error (.unrecognizedUnary "*") ∧
      convertEvents (CreateSimpleContext D constants) false
        [.OnOperator "*", .OnDigit x] =
        .ok [.ScalarEvaluator x, .BinaryOpEvaluator D.multiplies] ∧
      calculateEvents (CreateSimpleContext D constants) false
        [.OnOperator "*", .OnDigit x] = .error .malformedExpression) ∧
    Calculate strtodDigits true (CreateSimpleContext intOps []) "*5".toList =
      some (.error (.unrecognizedUnary "*")) ∧
    Calculate strtodDigits false (CreateSimpleContext intOps []) "*5".toList =
      some (.error .malformedExpression) := by
  refine ⟨?_, ?_, ?_, by decide, by decide⟩
  · intro α _ ctx v s h1 h2 hu hflag
    have hin : v.OnOperatorInPlace ctx s = (v, some (.unrecognizedUnary s)) := by
      simp [RPNVisitor.OnOperatorInPlace, h1, h2, hu, hflag]
    exact ⟨by rw [onOperator_eq_outcome, hin]; rfl, hin⟩
  · intro b0
    cases b0 <;> decide
  · intro α _ D constants x
    exact ⟨rfl, rfl, rfl⟩

/-- Witness of C14: the symbol `*` after `1 +` in the default context. -/
theorem c14_unrecognized_unary_witness :
    ("*" ≠ "(" ∧ "*" ≠ ")") ∧
    (CreateSimpleContext intOps []).unaryOperators.lookup "*" = none ∧
    RPNVisitor.OnOperatorInPlace (CreateSimpleContext intOps [])
      ⟨["+"], [.ScalarEvaluator 1], true⟩ "*" =
      (⟨["+"], [.ScalarEvaluator 1], true⟩, some (.unrecognizedUnary "*")) :=
  ⟨by decide, rfl,
    (c14_unrecognized_unary.1 Int (CreateSimpleContext intOps [])
      ⟨["+"], [.ScalarEvaluator 1], true⟩ "*" (by decide) (by decide) rfl rfl).2⟩

/-- Counterexample to C15: with `$` registered as a binary operator (here
addition) and given no precedence, `1 $ 2` evaluates to 3: the precedence of
`$` is never looked up, because the operator stack is empty when `$`
arrives. -/
theorem c15_missing_precedence_counterexample :
    (addBinaryOperator (CreateSimpleContext intOps []) "$"
      intOps.plus).operatorsPrecedence.lookup "$" = none ∧
    (addBinaryOperator (CreateSimpleContext intOps []) "$"
      intOps.plus).binaryOperators.lookup "$" = some intOps.plus ∧
    Calculate strtodDigits false
      (addBinaryOperator (CreateSimpleContext intOps []) "$" intOps.plus) "1 $ 2".toList =
      some (.ok 3) ∧
    Calculate strtodDigits true
      (addBinaryOperator (CreateSimpleContext intOps []) "$" intOps.plus) "1 $ 2".toList =
      some (.ok 3) := by
  refine ⟨rfl, rfl, by decide, by decide⟩

/-- C15 as amended: a precedence is looked up only when an operator other
than a parenthesis arrives while the operator stack is not empty.  In every
context such a call `OnOperator(t)` fails when `t` or the name on top of the
stack has no entry in `operatorsPrecedence` (with `std::out_of_range`, or with
the unrecognized-unary error when the flag is set and `t` is not a unary
operator).  When the operator arrives on an empty stack and nothing is
compared with it later, nothing fails: `a s b` evaluates to `s(a, b)` for
every registered binary `s`, with or without a precedence.  With `$`
registered without a precedence, `1 + 2 $ 3` and `1 $ 2 + 3` fail. -/
theorem c15_missing_precedence :
    (∀ (α : Type) [Zero α] (ctx : ExpressionContext α) (v : RPNVisitor α) (t top : String)
      (rest : List String),
      t ≠ "(" → t ≠ ")" → v.operators = top :: rest →
      (ctx.operatorsPrecedence.lookup t = none ∨
        ctx.operatorsPrecedence.lookup top = none) →
      v.OnOperator ctx t = .error .outOfRange ∨
        v.OnOperator ctx t = .error (.unrecognizedUnary t)) ∧
    (∀ (α : Type) [Zero α] (ctx : ExpressionContext α) (indeterminate : Bool) (s : String)
      (fn : α → α → α) (a b : α),
      s ≠ "(" → s ≠ ")" → ctx.binaryOperators.lookup s = some fn →
      calculateEvents ctx indeterminate [.OnDigit a, .OnOperator s, .OnDigit b] =
        .ok (fn a b)) ∧
    (∀ indeterminate : Bool,
      Calculate strtodDigits indeterminate
        (addBinaryOperator (CreateSimpleContext intOps []) "$" intOps.plus)
        "1 + 2 $ 3".toList = some (.error .outOfRange) ∧
      Calculate strtodDigits indeterminate
        (addBinaryOperator (CreateSimpleContext intOps []) "$" intOps.plus)
        "1 $ 2 + 3".toList = some (.error .outOfRange)) := by
  refine ⟨?_, ?_, ?_⟩
  · intro α _ ctx v t top rest h1 h2 hst hmiss
    unfold RPNVisitor.OnOperator
    simp only [h1, h2, if_false, hst, popWhilePrecedence_missing ctx t top rest _ hmiss]
    cases v.lastTokenReadWasOperator with
    | false => exact Or.inl rfl
    | true =>
      cases (ctx.unaryOperators.lookup t).isSome with
      | false => exact Or.inr rfl
      | true => exact Or.inl rfl
  · intro α _ ctx b0 s fn a b h1 h2 hb
    simp [calculateEvents, finalStackEvents, convertEvents, RPNVisitor.create,
      RPNVisitor.visitAll, RPNVisitor.visit, RPNVisitor.OnDigit, RPNVisitor.OnOperator,
      popWhilePrecedence, RPNVisitor.GetExpressionAsRPN, drainOperators,
      createEvaluator_binary _ _ _ hb, h1, h2, evaluateQueue, evaluate_binary,
      evaluate_scalar, stackTop]
  · intro b0
    cases b0 <;> decide

/-- Witness of C15 as amended: `$` without a precedence arriving after
`1 + 2`, with `"+"` on the operator stack. -/
theorem c15_missing_precedence_witness :
    ("$" ≠ "(" ∧ "$" ≠ ")") ∧
    (addBinaryOperator (CreateSimpleContext intOps []) "$"
      intOps.plus).operatorsPrecedence.lookup "$" = none ∧
    (RPNVisitor.OnOperator
        (addBinaryOperator (CreateSimpleContext intOps []) "$" intOps.plus)
        ⟨["+"], [.ScalarEvaluator 1, .ScalarEvaluator 2], false⟩ "$" = .error .outOfRange ∨
      RPNVisitor.OnOperator
        (addBinaryOperator (CreateSimpleContext intOps []) "$" intOps.plus)
        ⟨["+"], [.ScalarEvaluator 1, .ScalarEvaluator 2], false⟩ "$" =
        .error (.unrecognizedUnary "$")) :=
  ⟨by decide, rfl,
    c15_missing_precedence.1 Int
      (addBinaryOperator (CreateSimpleContext intOps []) "$" intOps.plus)
      ⟨["+"], [.ScalarEvaluator 1, .ScalarEvaluator 2], false⟩ "$" "+" [] (by decide)
      (by decide) rfl (Or.inl rfl)⟩

/-- C16. Word resolution: in every context, `OnWord(name)` fails with the
unresolved-identifier error exactly when `name` is a key of neither
`unaryOperators` nor `constantsTable`, and then the error carries `name` and
the output queue, the operator stack and the flag are left as they were.
When `name` is a key of `constantsTable` and not of `unaryOperators` the call
appends exactly `Scalar(constantsTable[name])` and clears the flag.  When
`name` is a key of `unaryOperators`, in `constantsTable` or not, the call
queues the dummy zero and goes on as `OnOperator(name)`. -/
theorem c16_word_resolution {α : Type} [Zero α] (ctx : ExpressionContext α)
    (v : RPNVisitor α) (name : String) :
    ((∃ n, v.OnWord ctx name = .error (.unresolvedIdentifier n)) ↔
      (ctx.unaryOperators.lookup name = none ∧ ctx.constantsTable.lookup name = none)) ∧
    ((ctx.unaryOperators.lookup name = none ∧ ctx.constantsTable.lookup name = none) →
      v.OnWord ctx name = .error (.unresolvedIdentifier name) ∧
      v.OnWordInPlace ctx name = (v, some (.unresolvedIdentifier name))) ∧
    (∀ value, ctx.unaryOperators.lookup name = none →
      ctx.constantsTable.lookup name = some value →
      v.OnWord ctx name =
        .ok ⟨v.operators, v.evaluators ++ [.ScalarEvaluator value], false⟩) ∧
    (∀ fn, ctx.unaryOperators.lookup name = some fn →
      v.OnWord ctx name =
        RPNVisitor.OnOperator ctx
          ⟨v.operators, v.evaluators ++ [.ScalarEvaluator 0], v.lastTokenReadWasOperator⟩
          name) := by
  have hneither : (ctx.unaryOperators.lookup name = none ∧
      ctx.constantsTable.lookup name = none) →
      v.OnWord ctx name = .error (.unresolvedIdentifier name) ∧
      v.OnWordInPlace ctx name = (v, some (.unresolvedIdentifier name)) := by
    rintro ⟨hu, hc⟩
    exact ⟨by simp [RPNVisitor.OnWord, hu, hc], by simp [RPNVisitor.OnWordInPlace, hu, hc]⟩
  have hunary : ∀ fn, ctx.unaryOperators.lookup name = some fn →
      v.OnWord ctx name =
        RPNVisitor.OnOperator ctx
          ⟨v.operators, v.evaluators ++ [.ScalarEvaluator 0], v.lastTokenReadWasOperator⟩
          name := by
    intro fn hu
    simp [RPNVisitor.OnWord, hu]
  have hconst : ∀ value, ctx.unaryOperators.lookup name = none →
      ctx.constantsTable.lookup name = some value →
      v.OnWord ctx name =
        .ok ⟨v.operators, v.evaluators ++ [.ScalarEvaluator value], false⟩ := by
    intro value hu hc
    simp [RPNVisitor.OnWord, hu, hc]
  refine ⟨⟨?_, fun h => ⟨name, (hneither h).1⟩⟩, hneither, hconst, hunary⟩
  rintro ⟨n, hn⟩
  cases hu : ctx.unaryOperators.lookup name with
  | some fn =>
    rw [hunary fn hu] at hn
    rcases onOperator_error_kind ctx _ name _ hn with h | h | ⟨m, h⟩ | h <;> cases h
  | none =>
    cases hc : ctx.constantsTable.lookup name with
    | some value =>
      rw [hconst value hu hc] at hn
      cases hn
    | none => exact ⟨rfl, rfl⟩

/-- Witness of C16: the words `pi` (a constant), `x` (unknown) and `sin` (a
unary operator) in the context of the test driver. -/
theorem c16_word_resolution_witness :
    RPNVisitor.OnWord
      (testContext intOps (fun x => -x) (fun x => x) (fun x y => if x > y then 1 else 0)
        [("pi", 3)]) ⟨[], [], true⟩ "pi" = .ok ⟨[], [] ++ [.ScalarEvaluator 3], false⟩ ∧
    RPNVisitor.OnWordInPlace
      (testContext intOps (fun x => -x) (fun x => x) (fun x y => if x > y then 1 else 0)
        [("pi", 3)]) ⟨[], [], true⟩ "x" = (⟨[], [], true⟩, some (.unresolvedIdentifier "x")) :=
  ⟨(c16_word_resolution
      (testContext intOps (fun x => -x) (fun x => x) (fun x y => if x > y then 1 else 0)
        [("pi", 3)]) ⟨[], [], true⟩ "pi").2.2.1 3 rfl rfl,
    ((c16_word_resolution
      (testContext intOps (fun x => -x) (fun x => x) (fun x y => if x > y then 1 else 0)
        [("pi", 3)]) ⟨[], [], true⟩ "x").2.1 ⟨rfl, rfl⟩).2⟩

/-- C17. Factory lookup order: in every context `CreateEvaluator` returns the
binary step of `binaryOperators[name]` whenever `name` is a key of
`binaryOperators`, also a key of `unaryOperators` or not; otherwise the
unary-trick step of `unaryOperators[name]` when `name` is a key of
`unaryOperators`; otherwise it fails with the unknown-operator error carrying
`name`.  So in the default context the steps of `-` and `+` are the binary
`minus` and `plus` and no conversion ever queues a unary-function step.  The
operands of a sign's step are the dummy zero and the operand only for a
leading sign read with the flag set (`0 - x`, `0 + x`); with the uninitialised
flag reading false no dummy is queued and the evaluation fails, and after a
binary operator the pending operator takes the dummy, so the sign's step gets
its result as left operand: `a - - b` is `(a - 0) - b`, and `7 - -3` is 4. -/
theorem c17_factory_lookup_order :
    (∀ (α : Type) (ctx : ExpressionContext α) (name : String),
      (∀ fn, ctx.binaryOperators.lookup name = some fn →
        CreateEvaluator ctx name = .ok (.BinaryOpEvaluator fn)) ∧
      (∀ fn, ctx.binaryOperators.lookup name = none →
        ctx.unaryOperators.lookup name = some fn →
        CreateEvaluator ctx name = .ok (.UnaryFunctionEvaluator fn)) ∧
      (ctx.binaryOperators.lookup name = none → ctx.unaryOperators.lookup name = none →
        CreateEvaluator ctx name = .error (.unknownOperator name))) ∧
    (∀ (α : Type) [Zero α] (D : DoubleOps α) (constants : List (String × α)),
      CreateEvaluator (CreateSimpleContext D constants) "-" =
        .ok (.BinaryOpEvaluator D.minus) ∧
      CreateEvaluator (CreateSimpleContext D constants) "+" =
        .ok (.BinaryOpEvaluator D.plus) ∧
      (∀ name e, CreateEvaluator (CreateSimpleContext D constants) name = .ok e →
        e.isUnaryFunction = false) ∧
      (∀ (indeterminate : Bool) (events : List (Event α)) (q : EvaluatorsQueue α),
        convertEvents (CreateSimpleContext D constants) indeterminate events = .ok q →
        ∀ e ∈ q, e.isUnaryFunction = false) ∧
      (∀ x : α,
        convertEvents (CreateSimpleContext D constants) true
          [.OnOperator "-", .OnDigit x] =
          .ok [.ScalarEvaluator 0, .ScalarEvaluator x, .BinaryOpEvaluator D.minus] ∧
        calculateEvents (CreateSimpleContext D constants) true
          [.OnOperator "-", .OnDigit x] = .ok (D.minus 0 x) ∧
        convertEvents (CreateSimpleContext D constants) true
          [.OnOperator "+", .OnDigit x] =
          .ok [.ScalarEvaluator 0, .ScalarEvaluator x, .BinaryOpEvaluator D.plus] ∧
        calculateEvents (CreateSimpleContext D constants) true
          [.OnOperator "+", .OnDigit x] = .ok (D.plus 0 x)) ∧
      (∀ x : α,
        convertEvents (CreateSimpleContext D constants) false
          [.OnOperator "-", .OnDigit x] =
          .ok [.ScalarEvaluator x, .BinaryOpEvaluator D.minus] ∧
        calculateEvents (CreateSimpleContext D constants) false
          [.OnOperator "-", .OnDigit x] = .error .malformedExpression ∧
        convertEvents (CreateSimpleContext D constants) false
          [.OnOperator "+", .OnDigit x] =
          .ok [.ScalarEvaluator x, .BinaryOpEvaluator D.plus] ∧
        calculateEvents (CreateSimpleContext D constants) false
          [.OnOperator "+", .OnDigit x] = .error .malformedExpression) ∧
      (∀ (indeterminate : Bool) (a b : α),
        convertEvents (CreateSimpleContext D constants) indeterminate
          [.OnDigit a, .OnOperator "-", .OnOperator "-", .OnDigit b] =
          .ok [.ScalarEvaluator a, .ScalarEvaluator 0, .BinaryOpEvaluator D.minus,
            .ScalarEvaluator b, .BinaryOpEvaluator D.minus] ∧
        calculateEvents (CreateSimpleContext D constants) indeterminate
          [.OnDigit a, .OnOperator "-", .OnOperator "-", .OnDigit b] =
          .ok (D.minus (D.minus a 0) b))) ∧
    (∀ indeterminate : Bool,
      Calculate strtodDigits indeterminate (CreateSimpleContext intOps []) "7 - -3".toList =
        some (.ok 4)) := by
  refine ⟨?_, ?_, ?_⟩
  · intro α ctx name
    refine ⟨?_, ?_, ?_⟩
    · intro fn hb
      simp [CreateEvaluator, hb]
    · intro fn hb hu
      simp [CreateEvaluator, hb, hu]
    · intro hb hu
      simp [CreateEvaluator, hb, hu]
  · intro α _ D constants
    have hP : ∀ name e, CreateEvaluator (CreateSimpleContext D constants) name = .ok e →
        e.isUnaryFunction = false :=
      createEvaluator_not_unary _ (simpleContext_unary_keys D constants)
    refine ⟨rfl, rfl, hP, ?_, ?_, ?_, ?_⟩
    · intro b0 events q h
      exact convertEvents_steps _ (fun e => e.isUnaryFunction = false) hP (fun _ => rfl)
        b0 events q h
    · intro x
      exact ⟨rfl, rfl, rfl, rfl⟩
    · intro x
      exact ⟨rfl, rfl, rfl, rfl⟩
    · intro b0 a b
      exact ⟨rfl, rfl⟩
  · intro b0
    cases b0 <;> decide

/-- Witness of C17: the name `-` of the default context, a key of both
tables, gives the binary step. -/
theorem c17_factory_lookup_order_witness :
    (CreateSimpleContext intOps []).binaryOperators.lookup "-" = some intOps.minus ∧
    ((CreateSimpleContext intOps []).unaryOperators.lookup "-").isSome = true ∧
    CreateEvaluator (CreateSimpleContext intOps []) "-" =
      .ok (.BinaryOpEvaluator intOps.minus) :=
  ⟨rfl, rfl,
    (c17_factory_lookup_order.1 Int (CreateSimpleContext intOps []) "-").1 intOps.minus rfl⟩

/-- C18. Operator-run scanning: when the current character `c` is not NUL,
not whitespace, not a digit and not a letter or underscore, `HandleOperator`
makes exactly one call.  For `(` or `)` the call is `OnOperator` with that
one-character token and the cursor moves by one.  Otherwise the symbol is `c`
followed by the longest run of characters that continue an operator (not NUL,
whitespace, digit, letter, underscore or parenthesis), and the cursor is left
just past that run.  So `((` gives two `(` calls, `>=` is one token, and in
`2*-3` the characters `*-` are one token. -/
theorem c18_operator_run :
    (∀ (α : Type) (c : Char) (rest : List Char),
      c ≠ NUL → isspace c = false → isdigit c = false → isAlphaOrUnderscore c = false →
      (c = '(' → HandleOperator (α := α) (c :: rest) = (rest, [.OnOperator "("])) ∧
      (c = ')' → HandleOperator (α := α) (c :: rest) = (rest, [.OnOperator ")"])) ∧
      (c ≠ '(' → c ≠ ')' →
        HandleOperator (α := α) (c :: rest) =
          (rest.dropWhile continuesOperator,
            [.OnOperator (String.mk (c :: rest.takeWhile continuesOperator))]) ∧
        c :: rest = (c :: rest.takeWhile continuesOperator) ++
          rest.dropWhile continuesOperator ∧
        (∀ d ∈ rest.takeWhile continuesOperator,
          d ≠ NUL ∧ isspace d = false ∧ isdigit d = false ∧ isAlphaOrUnderscore d = false ∧
            d ≠ '(' ∧ d ≠ ')') ∧
        (∀ d tail, rest.dropWhile continuesOperator = d :: tail →
          ¬ (d ≠ NUL ∧ isspace d = false ∧ isdigit d = false ∧
            isAlphaOrUnderscore d = false ∧ d ≠ '(' ∧ d ≠ ')')))) ∧
    Parse strtodDigits "((".toList = some [.OnOperator "(", .OnOperator "("] ∧
    HandleOperator (α := Int) ">=1".toList = ("1".toList, [.OnOperator ">="]) ∧
    Parse strtodDigits "2*-3".toList =
      some [.OnDigit 2, .OnOperator "*-", .OnDigit 3] := by
  refine ⟨?_, by decide, by decide, by decide⟩
  intro α c rest hn hs hd ha
  refine ⟨?_, ?_, ?_⟩
  · rintro rfl
    rfl
  · rintro rfl
    rfl
  · intro ho hc
    refine ⟨handleOperator_run c rest hn hs hd ha ho hc, ?_, ?_, ?_⟩
    · simp [List.takeWhile_append_dropWhile]
    · intro d hm
      exact (continuesOperator_iff d).mp (List.mem_takeWhile_imp hm)
    · intro d tail hdrop hcont
      have hcd : continuesOperator d = true := (continuesOperator_iff d).mpr hcont
      have hhead := List.head_dropWhile_not continuesOperator rest
        (by rw [hdrop]; exact List.cons_ne_nil _ _)
      simp [hdrop, hcd] at hhead

/-- Witness of C18: the input `>=1`, whose operator run is `>=`. -/
theorem c18_operator_run_witness :
    HandleOperator (α := Int) ('>' :: "=1".toList) =
      ("=1".toList.dropWhile continuesOperator,
        [.OnOperator (String.mk ('>' :: "=1".toList.takeWhile continuesOperator))]) :=
  ((c18_operator_run.1 Int '>' "=1".toList (by decide) (by decide) (by decide)
    (by decide)).2.2 (by decide) (by decide)).1

/-- C19. Successful conversion implies balanced parentheses: in every context
where `"("` is a key of neither `binaryOperators` nor `unaryOperators`,
creating a step for `"("` always fails with the unknown-operator error, so no
such step reaches the queue; and whenever the conversion of a sequence of
scanner calls (whose words are not the token `")"`, as is every sequence the
scanner produces) succeeds, its parenthesis tokens are balanced: every `")"`
closes an earlier `"("` and none stays open.  The same holds for the
conversion of any text.  In the default context `(1+2` fails with the
unknown-operator error for `"("`. -/
theorem c19_balanced_parentheses :
    (∀ (α : Type) [Zero α] (ctx : ExpressionContext α),
      ctx.binaryOperators.lookup "(" = none → ctx.unaryOperators.lookup "(" = none →
      CreateEvaluator ctx "(" = .error (.unknownOperator "(") ∧
      (∀ (indeterminate : Bool) (events : List (Event α)) (q : EvaluatorsQueue α),
        (∀ name, Event.OnWord name ∈ events → name ≠ ")") →
        convertEvents ctx indeterminate events = .ok q → balanced events = true) ∧
      (∀ (strtod : List Char → α × Nat) (indeterminate : Bool) (expr : List Char)
        (q : EvaluatorsQueue α),
        ConvertToRPN strtod indeterminate expr ctx = some (.ok q) →
        ∃ events, Parse strtod expr = some events ∧ balanced events = true)) ∧
    (∀ indeterminate : Bool,
      Parse strtodDigits "(1+2".toList =
        some [.OnOperator "(", .OnDigit 1, .OnOperator "+", .OnDigit 2] ∧
      balanced [Event.OnOperator "(", .OnDigit (1 : Int), .OnOperator "+", .OnDigit 2] =
        false ∧
      Calculate strtodDigits indeterminate (CreateSimpleContext intOps []) "(1+2".toList =
        some (.error (.unknownOperator "("))) := by
  refine ⟨?_, ?_⟩
  · intro α _ ctx hb hu
    refine ⟨createEvaluator_open_paren ctx hb hu, ?_, ?_⟩
    · intro b0 events q hw h
      exact convertEvents_balanced ctx hb hu b0 events q hw h
    · intro strtod b0 expr q h
      unfold ConvertToRPN at h
      cases hp : Parse strtod expr with
      | none => simp [hp] at h
      | some events =>
        simp only [hp, Option.map_some', Option.some.injEq] at h
        exact ⟨events, rfl, convertEvents_balanced ctx hb hu b0 events q
          (parseLoop_events strtod _ _ events hp) h⟩
  · intro b0
    cases b0 <;> decide

/-- Witness of C19: the conversion of `(1+2)` in the default context. -/
theorem c19_balanced_parentheses_witness :
    (CreateSimpleContext intOps []).binaryOperators.lookup "(" = none ∧
    (CreateSimpleContext intOps []).unaryOperators.lookup "(" = none ∧
    ConvertToRPN strtodDigits false "(1+2)".toList (CreateSimpleContext intOps []) =
      some (.ok [.ScalarEvaluator 1, .ScalarEvaluator 2, .BinaryOpEvaluator intOps.plus]) ∧
    ∃ events, Parse strtodDigits "(1+2)".toList = some events ∧ balanced events = true :=
  ⟨rfl, rfl, rfl,
    (c19_balanced_parentheses.1 Int (CreateSimpleContext intOps []) rfl rfl).2.2 strtodDigits
      false "(1+2)".toList
      [.ScalarEvaluator 1, .ScalarEvaluator 2, .BinaryOpEvaluator intOps.plus] rfl⟩

/-- C20. Scanner progress and termination: when `strtod` moves its end pointer
forward on a digit and not past the terminator, one pass through the body of
the loop of `Parse`, started on a character other than NUL, leaves a cursor
that is a proper suffix of the starting one, so inside the input and strictly
further on.  Hence `Parse` ends on every input, within one pass per character
and with at most one call per character; more passes allowed give the same
calls. -/
theorem c20_scanner_terminates {α : Type} (strtod : List Char → α × Nat)
    (hs : strtodAdvances strtod) (expr : List Char) :
    (cur expr ≠ NUL →
      (parseStep strtod expr).1 <:+ expr ∧
      (parseStep strtod expr).1.length < expr.length) ∧
    (∃ events, Parse strtod expr = some events ∧ events.length ≤ expr.length) ∧
    (∀ fuel events, parseLoop strtod fuel expr = some events →
      parseLoop strtod (fuel + 1) expr = some events) ∧
    (∀ fuel, expr.length ≤ fuel → ∃ events, parseLoop strtod fuel expr = some events) := by
  refine ⟨?_, parse_terminates strtod hs expr, ?_, ?_⟩
  · intro hn
    exact ⟨parseStep_suffix strtod expr, parseStep_progress strtod hs expr hn⟩
  · intro fuel events h
    exact parseLoop_fuel_mono strtod fuel expr events h
  · intro fuel hle
    obtain ⟨events, he, _⟩ := parseLoop_terminates strtod hs fuel expr hle
    exact ⟨events, he⟩

/-- Witness of C20: the digit-run reading of `strtod` on the input `12+x`. -/
theorem c20_scanner_terminates_witness :
    strtodAdvances strtodDigits ∧
    ∃ events, Parse strtodDigits "12+x".toList = some events ∧
      events.length ≤ "12+x".toList.length :=
  ⟨strtodDigits_advances,
    (c20_scanner_terminates strtodDigits strtodDigits_advances "12+x".toList).2.1⟩

end See
